import Mathlib

set_option autoImplicit false

/-
Verification development for src/convert_qa.py.

The script's core is `convert_txt_to_json`, which reads a text file and runs

  pattern = r'Q(\d+)[：:]\s*(.+?)\r?\n\s*A\d+[：:]\s*(.+?)(?=\r?\n\r?\nQ\d+[：:]|\r?\n\r?\n\r?\n|\Z)'
  matches = re.findall(pattern, content, re.DOTALL)

then, for each match triple, builds {id, question, answer} with
`int(g1)`, `g2.strip()`, `re.sub(r'\r?\n\s*', '', g3.strip())`,
sorts the list stably by id (Python's list.sort is stable), and writes JSON.

We embed the text as `List Char`.  The regex is embedded as a small AST
(`Regex`) whose quantifiers range over single-character classes only —
exactly the shape of the source pattern — together with a CPS backtracking
matcher `matchR` implementing Python's `re` backtracking order:
alternation tries the left branch first, greedy quantifiers try the longest
repetition first, lazy quantifiers the shortest, `(?=...)` is zero-width,
`\Z` matches only at the end of the text, and `re.findall` scans positions
left to right, restarting after each match (advancing one character past
zero-width matches).  Character classes: `\s` in Python (str patterns) and
`str.strip()`/`str.isspace` use the same whitespace set, embedded as
`isPySpace`; `\d` and `int` are embedded over ASCII digits 0-9 (the
document domain; Python would additionally accept other Unicode decimal
digits, which no claim depends on).
-/

namespace ConvertQA

/-- Python's whitespace predicate: the character set matched by `\s` in a
Unicode `str` pattern, which coincides with `str.isspace` (used by
`str.strip()`). -/
def isPySpace (c : Char) : Bool :=
  let n := c.toNat
  (0x9 ≤ n && n ≤ 0xd) || (0x1c ≤ n && n ≤ 0x20) || n == 0x85 || n == 0xa0 ||
  n == 0x1680 || (0x2000 ≤ n && n ≤ 0x200a) || n == 0x2028 || n == 0x2029 ||
  n == 0x202f || n == 0x205f || n == 0x3000

/-- ASCII decimal digit, the embedding of `\d`. -/
def isAsciiDigit (c : Char) : Bool :=
  0x30 ≤ c.toNat && c.toNat ≤ 0x39

/-- The character class `[：:]` of the source pattern: full-width or
half-width colon. -/
def isColon (c : Char) : Bool :=
  c == '：' || c == ':'

/-- The class matched by `.` under `re.DOTALL`: every character. -/
def anyDotAll (_ : Char) : Bool := true

/-- Regular-expression AST.  Quantifiers (`opt` = `?`, `starG` = greedy `*`,
`plusG` = greedy `+`, `plusL` = lazy `+?`) apply to a single-character
class, which is the only way the source pattern uses them. -/
inductive Regex where
  | eps : Regex
  | cls (p : Char → Bool) : Regex
  | opt (p : Char → Bool) : Regex
  | starG (p : Char → Bool) : Regex
  | plusG (p : Char → Bool) : Regex
  | plusL (p : Char → Bool) : Regex
  | cat (r1 r2 : Regex) : Regex
  | alt (r1 r2 : Regex) : Regex
  | look (r : Regex) : Regex
  | group (n : Nat) (r : Regex) : Regex
  | endA : Regex

/-- Capture environment: group number paired with captured text, most
recent binding first. -/
abbrev Caps := List (Nat × List Char)

def setCap (n : Nat) (v : List Char) (caps : Caps) : Caps :=
  (n, v) :: caps

def getCap (n : Nat) (caps : Caps) : List Char :=
  match caps with
  | [] => []
  | (m, v) :: rest => if m = n then v else getCap n rest

/-- Result of a match attempt: the remaining text after the match together
with the capture environment, or `none` on failure. -/
abbrev MRes := Option (List Char × Caps)

/-- Try the continuation at each drop-count in the given list, returning
the first success.  Used to realize quantifier backtracking order. -/
def firstSome (f : Nat → MRes) : List Nat → MRes
  | [] => none
  | n :: ns =>
    match f n with
    | some r => some r
    | none => firstSome f ns

/-- CPS backtracking matcher, faithful to Python `re` semantics for this
AST: the continuation `k` receives the unconsumed text and captures; a
quantifier over class `p` can consume any length up to the maximal run of
`p`-characters, tried longest-first (greedy) or shortest-first (lazy);
`alt` tries the left branch first; `look` is a zero-width lookahead that
keeps captures made inside; `group` records the consumed span; `endA`
(`\Z`) succeeds only at the end of the text. -/
def matchR (r : Regex) (s : List Char) (caps : Caps)
    (k : List Char → Caps → MRes) : MRes :=
  match r with
  | .eps => k s caps
  | .cls p =>
    match s with
    | [] => none
    | c :: rest => if p c then k rest caps else none
  | .opt p =>
    match s with
    | c :: rest =>
      if p c then
        match k rest caps with
        | some res => some res
        | none => k s caps
      else k s caps
    | [] => k s caps
  | .starG p =>
    firstSome (fun n => k (s.drop n) caps)
      ((List.range ((s.takeWhile p).length + 1)).reverse)
  | .plusG p =>
    firstSome (fun n => k (s.drop n) caps)
      ((List.range' 1 (s.takeWhile p).length).reverse)
  | .plusL p =>
    firstSome (fun n => k (s.drop n) caps)
      (List.range' 1 (s.takeWhile p).length)
  | .cat r1 r2 => matchR r1 s caps (fun s' c' => matchR r2 s' c' k)
  | .alt r1 r2 =>
    match matchR r1 s caps k with
    | some res => some res
    | none => matchR r2 s caps k
  | .look r =>
    match matchR r s caps (fun s' c' => some (s', c')) with
    | some (_, c') => k s c'
    | none => none
  | .group n r =>
    matchR r s caps (fun s' c' => k s' (setCap n (s.take (s.length - s'.length)) c'))
  | .endA =>
    match s with
    | [] => k s caps
    | _ :: _ => none

/-- The regex fragment `Q\d+[：:]` of the lookahead. -/
def qMarkRe : Regex :=
  .cat (.cls (· == 'Q')) (.cat (.plusG isAsciiDigit) (.cls isColon))

/-- Lookahead alternative `\r?\n\r?\nQ\d+[：:]`: a question marker preceded
by a blank line. -/
def boundaryQ : Regex :=
  .cat (.opt (· == '\r')) (.cat (.cls (· == '\n'))
    (.cat (.opt (· == '\r')) (.cat (.cls (· == '\n'))
      (.cat (.cls (· == 'Q')) (.cat (.plusG isAsciiDigit) (.cls isColon))))))

/-- Lookahead alternative `\r?\n\r?\n\r?\n`: two consecutive blank lines. -/
def boundaryNL : Regex :=
  .cat (.opt (· == '\r')) (.cat (.cls (· == '\n'))
    (.cat (.opt (· == '\r')) (.cat (.cls (· == '\n'))
      (.cat (.opt (· == '\r')) (.cls (· == '\n'))))))

/-- The full lookahead `(?=\r?\n\r?\nQ\d+[：:]|\r?\n\r?\n\r?\n|\Z)` ending
the source pattern. -/
def lookB : Regex :=
  .look (.alt boundaryQ (.alt boundaryNL .endA))

/-- The source pattern
`Q(\d+)[：:]\s*(.+?)\r?\n\s*A\d+[：:]\s*(.+?)(?=...)` as an AST. -/
def qaPattern : Regex :=
  .cat (.cls (· == 'Q'))
  (.cat (.group 1 (.plusG isAsciiDigit))
  (.cat (.cls isColon)
  (.cat (.starG isPySpace)
  (.cat (.group 2 (.plusL anyDotAll))
  (.cat (.opt (· == '\r'))
  (.cat (.cls (· == '\n'))
  (.cat (.starG isPySpace)
  (.cat (.cls (· == 'A'))
  (.cat (.plusG isAsciiDigit)
  (.cat (.cls isColon)
  (.cat (.starG isPySpace)
  (.cat (.group 3 (.plusL anyDotAll))
        lookB))))))))))))

/-- One anchored match attempt of the full pattern at the start of `s`. -/
def tryMatch (s : List Char) : MRes :=
  matchR qaPattern s [] (fun s' c' => some (s', c'))

/-- Deterministic one-step reading of `\r?\n` (the lookahead's line-break
unit): CRLF or LF, returning the rest of the text. -/
def eatNL? : List Char → Option (List Char)
  | '\r' :: '\n' :: rest => some rest
  | '\n' :: rest => some rest
  | _ => none

/-- Does `Q\d+[：:]` match at the start of `s`: a `Q`, at least one digit,
then a full- or half-width colon. -/
def qMarkAt : List Char → Bool
  | 'Q' :: rest =>
    decide (1 ≤ (rest.takeWhile isAsciiDigit).length) &&
      (match rest.dropWhile isAsciiDigit with
       | c :: _ => isColon c
       | [] => false)
  | _ => false

/-- Does the record-boundary lookahead
`(?=\r?\n\r?\nQ\d+[：:]|\r?\n\r?\n\r?\n|\Z)` hold at `s`: a question
marker preceded by a blank line, two consecutive blank lines, or the end of
the document.  (Proved below to coincide with the matcher on `lookB`.) -/
def boundaryHolds (s : List Char) : Bool :=
  match eatNL? s with
  | some s1 =>
    match eatNL? s1 with
    | some s2 => qMarkAt s2 || (eatNL? s2).isSome
    | none => false
  | none => s.isEmpty

/-- One `re.findall` tuple: the three capture groups of the pattern. -/
structure RawMatch where
  g1 : List Char
  g2 : List Char
  g3 : List Char
deriving DecidableEq, Repr

def capsToMatch (caps : Caps) : RawMatch :=
  ⟨getCap 1 caps, getCap 2 caps, getCap 3 caps⟩

/-- Fuel-based scanning loop of `re.findall`: try an anchored match at the
current position, emit the capture tuple on success and resume right after
the match (one character further when the match was zero-width), otherwise
advance one character.  The fuel only bounds the recursion depth; since the
position strictly advances, `s.length + 1` units are always enough. -/
def findAllAux : Nat → List Char → List RawMatch
  | 0, _ => []
  | _ + 1, [] =>
    match tryMatch [] with
    | some (_, c) => [capsToMatch c]
    | none => []
  | fuel + 1, c0 :: t =>
    match tryMatch (c0 :: t) with
    | some (rem, c) =>
      capsToMatch c :: findAllAux fuel ((c0 :: t).drop (max 1 ((c0 :: t).length - rem.length)))
    | none => findAllAux fuel t

/-- Embedding of `re.findall(pattern, content, re.DOTALL)`: scan all
positions of the text left to right. -/
def findAll (s : List Char) : List RawMatch :=
  findAllAux (s.length + 1) s

/-- One QA record, the dictionary `{id, question, answer}` of the source. -/
structure QA where
  id : Nat
  question : List Char
  answer : List Char
deriving DecidableEq, Repr

/-- Embedding of `int(...)` on the digit string captured by `(\d+)`. -/
def digitsToNat (l : List Char) : Nat :=
  l.foldl (fun n c => 10 * n + (c.toNat - 0x30)) 0

/-- Embedding of `str.strip()`: remove leading and trailing whitespace. -/
def pyStrip (l : List Char) : List Char :=
  ((l.dropWhile isPySpace).reverse.dropWhile isPySpace).reverse

/-- Scanning loop of `re.sub(r'\r?\n\s*', '', answer)`: when `skip` is
true the scanner is inside the maximal whitespace run swallowed by `\s*`
after a removed line break.  An LF or CRLF always (re-)enters the deleting
run; in a run every further whitespace character is deleted; any other
character is emitted. -/
def subNLGo : Bool → List Char → List Char
  | _, [] => []
  | _, '\r' :: '\n' :: rest => subNLGo true rest
  | _, '\n' :: rest => subNLGo true rest
  | skip, c :: rest =>
    if skip && isPySpace c then subNLGo true rest else c :: subNLGo false rest

/-- Embedding of `re.sub(r'\r?\n\s*', '', answer)`: each line break (LF or
CRLF) together with the maximal whitespace run that follows it is deleted
outright; all other characters are kept unchanged. -/
def subNL (l : List Char) : List Char :=
  subNLGo false l

/-- The per-match record construction of the source loop:
`int(g1)`, `g2.strip()`, `re.sub(r'\r?\n\s*', '', g3.strip())`. -/
def mkQA (m : RawMatch) : QA :=
  ⟨digitsToNat m.g1, pyStrip m.g2, subNL (pyStrip m.g3)⟩

/-- Stable insertion of a record into an id-sorted list: the new record
goes after every record with a strictly smaller id and before the first
record with an id greater than or equal to its own. -/
def insortQA (a : QA) : List QA → List QA
  | [] => [a]
  | b :: l => if b.id < a.id then b :: insortQA a l else a :: b :: l

/-- Embedding of `qa_list.sort(key=lambda x: x['id'])`: Python's
`list.sort` is the stable ascending sort by the key, and a stable sort is
determined extensionally by that specification, so the stable insertion
sort below is the same function.  (Stability and sortedness of this
definition are proved below.) -/
def sortQA : List QA → List QA
  | [] => []
  | a :: l => insortQA a (sortQA l)

/-- The extraction core of `convert_txt_to_json` on in-memory text:
find all pattern matches, build a record per match in document order, then
stable-sort by id. -/
def extract (text : List Char) : List QA :=
  sortQA ((findAll text).map mkQA)

/-- Outcome of one run of `convert_txt_to_json`: the process exit code
(`sys.exit(1)` on a missing input file, otherwise a normal return), the
console messages printed, and the output file written (path and records),
if any.  The filesystem is abstracted as a partial map from paths to file
contents; a path that cannot be located or read maps to `none`
(`open` raises `FileNotFoundError` there). -/
structure RunResult where
  exitCode : Nat
  stdout : List String
  written : Option (String × List QA)
deriving DecidableEq, Repr

/-- Embedding of the I/O glue of `convert_txt_to_json(input_file,
output_file)`: try to read the input; on failure print
`錯誤：找不到檔案 {input_file}` and exit with status 1 before touching the
output; on success extract, write the records to the output file and
print the success message. -/
def convert_txt_to_json (fs : String → Option String)
    (input_file output_file : String) : RunResult :=
  match fs input_file with
  | none =>
    { exitCode := 1
      stdout := ["錯誤：找不到檔案 " ++ input_file]
      written := none }
  | some content =>
    let qa_list := extract content.toList
    { exitCode := 0
      stdout := ["✅ 成功轉換 " ++ toString qa_list.length ++ " 條 QA 到 " ++ output_file]
      written := some (output_file, qa_list) }

/-- Test that a text uses only LF or CRLF line endings: every carriage
return is immediately followed by a line feed. -/
def crlfOnly : List Char → Bool
  | [] => true
  | '\r' :: rest =>
    match rest with
    | '\n' :: _ => crlfOnly rest
    | _ => false
  | _ :: rest => crlfOnly rest

/-- Suffix relation on texts, used for the scanning invariants. -/
def SuffixOf (s t : List Char) : Prop := ∃ p, p ++ s = t

/-- Contiguous-substring relation on texts: every capture recorded by the
matcher is such a substring of the input. -/
def SubSegOf (m t : List Char) : Prop := ∃ p q, p ++ m ++ q = t

/-- All captured values of a capture environment are contiguous substrings
of the scanned text. -/
def GoodCaps (t : List Char) (caps : Caps) : Prop :=
  ∀ nv ∈ caps, SubSegOf nv.2 t

/-- The example document of the spec (section 8). -/
def c1Text : List Char :=
  ("Q2：What is X?\nA2：X is\na thing.\n\nQ1：What is Y?\nA1：Y is simple.").toList

/-- Document whose first entry has a whitespace-only answer: the greedy
`\s*` after `A1：` swallows the blank-line record boundary, so the first
record's answer absorbs the entire second entry. -/
def c6Text : List Char :=
  ("Q1：q\nA1：\n\nQ2：r\nA2：s").toList

/-- Same phenomenon with a whitespace (space-only) answer, used as the C2
and C8 counterexample: two well-formed-looking entries, one extracted
record. -/
def c2Text : List Char :=
  ("Q1：q\nA1： \n\nQ2：r\nA2：s").toList

/-- The C2/C8 document with the second entry's answer-marker digits changed
from 2 to 9; it differs from `c2Text` only in those digits. -/
def c2TextB : List Char :=
  ("Q1：q\nA1： \n\nQ2：r\nA9：s").toList

/-- One source-document entry of the well-formed family:
`Q<qd><qc><q>\nA<ad><ac><a>`. -/
structure Entry where
  qd : List Char
  qc : Char
  q : List Char
  ad : List Char
  ac : Char
  a : List Char
deriving DecidableEq, Repr

/-- The text of one entry: question line then answer line. -/
def entryText (e : Entry) : List Char :=
  'Q' :: (e.qd ++ e.qc :: e.q) ++ '\n' :: 'A' :: (e.ad ++ e.ac :: e.a)

/-- A well-formed field line: a single line (no LF/CR) containing at least
one non-whitespace character. -/
def WFline (l : List Char) : Prop :=
  (∀ c ∈ l, c ≠ '\n' ∧ c ≠ '\r') ∧ ∃ c ∈ l, isPySpace c = false

/-- A well-formed marker id: a nonempty string of decimal digits. -/
def WFdigits (l : List Char) : Prop :=
  l ≠ [] ∧ ∀ c ∈ l, isAsciiDigit c = true

/-- A well-formed entry: digit ids, colon separators (full- or half-width),
and single-line question and answer each containing a non-whitespace
character. -/
def WFentry (e : Entry) : Prop :=
  WFdigits e.qd ∧ isColon e.qc = true ∧ WFline e.q ∧
  WFdigits e.ad ∧ isColon e.ac = true ∧ WFline e.a

instance (l : List Char) : Decidable (WFline l) := by
  unfold WFline
  infer_instance

instance (l : List Char) : Decidable (WFdigits l) := by
  unfold WFdigits
  infer_instance

instance (e : Entry) : Decidable (WFentry e) := by
  unfold WFentry
  infer_instance

/-- A document made of entries separated by exactly one blank line. -/
def docText : List Entry → List Char
  | [] => []
  | [e] => entryText e
  | e :: rest => entryText e ++ '\n' :: '\n' :: docText rest

/-- The record the converter produces for a well-formed entry: the id from
the question marker digits, the stripped question, the stripped and
de-wrapped answer.  The answer marker's digits `ad` (and its separator)
play no part. -/
def recOf (e : Entry) : QA :=
  ⟨digitsToNat e.qd, pyStrip e.q, subNL (pyStrip e.a)⟩

/-- Replace the answer-marker digits of an entry. -/
def setAD (e : Entry) (d : List Char) : Entry :=
  { e with ad := d }


lemma mem_insortQA {x a : QA} {l : List QA} :
    x ∈ insortQA a l ↔ x = a ∨ x ∈ l := by
  induction l with
  | nil => simp [insortQA]
  | cons b l ih =>
    by_cases hb : b.id < a.id
    · simp only [insortQA, if_pos hb, List.mem_cons, ih]
      tauto
    · simp only [insortQA, if_neg hb, List.mem_cons]

lemma insortQA_pairwise {a : QA} {l : List QA}
    (h : l.Pairwise (fun x y => x.id ≤ y.id)) :
    (insortQA a l).Pairwise (fun x y => x.id ≤ y.id) := by
  induction l with
  | nil => simp [insortQA]
  | cons b l ih =>
    rw [List.pairwise_cons] at h
    by_cases hb : b.id < a.id
    · rw [insortQA, if_pos hb, List.pairwise_cons]
      refine ⟨fun x hx => ?_, ih h.2⟩
      rcases mem_insortQA.1 hx with rfl | hx
      · exact Nat.le_of_lt hb
      · exact h.1 x hx
    · rw [insortQA, if_neg hb, List.pairwise_cons, List.pairwise_cons]
      refine ⟨fun x hx => ?_, h⟩
      rcases List.mem_cons.1 hx with rfl | hx
      · exact Nat.le_of_not_lt hb
      · exact Nat.le_trans (Nat.le_of_not_lt hb) (h.1 x hx)

lemma sortQA_pairwise (l : List QA) :
    (sortQA l).Pairwise (fun x y => x.id ≤ y.id) := by
  induction l with
  | nil => simp [sortQA]
  | cons a l ih => exact insortQA_pairwise ih

lemma filter_insortQA (i : Nat) (a : QA) (l : List QA) :
    (insortQA a l).filter (fun r => r.id == i) =
      if a.id = i then a :: l.filter (fun r => r.id == i)
      else l.filter (fun r => r.id == i) := by
  induction l with
  | nil =>
    by_cases ha : a.id = i
    · simp [insortQA, List.filter, ha, if_pos (beq_iff_eq.mpr ha)]
    · simp [insortQA, List.filter, ha, beq_eq_false_iff_ne.mpr ha]
  | cons b l ih =>
    by_cases hb : b.id < a.id
    · rw [insortQA, if_pos hb]
      by_cases ha : a.id = i
      · have hbne : b.id ≠ i := by omega
        simp [List.filter, ih, ha, beq_eq_false_iff_ne.mpr hbne]
      · by_cases hbi : b.id = i
        · simp [List.filter, ih, ha, beq_iff_eq.mpr hbi]
        · simp [List.filter, ih, ha, beq_eq_false_iff_ne.mpr hbi]
    · rw [insortQA, if_neg hb]
      by_cases ha : a.id = i
      · simp [List.filter, ha, beq_iff_eq.mpr ha]
      · simp [List.filter, ha, beq_eq_false_iff_ne.mpr ha]

lemma sortQA_filter (i : Nat) (l : List QA) :
    (sortQA l).filter (fun r => r.id == i) = l.filter (fun r => r.id == i) := by
  induction l with
  | nil => rfl
  | cons a l ih =>
    rw [sortQA, filter_insortQA]
    by_cases ha : a.id = i
    · simp [List.filter, ha, ih, beq_iff_eq.mpr ha]
    · simp [List.filter, ha, ih, beq_eq_false_iff_ne.mpr ha]

/-- C3: for every input text the output sequence is sorted ascending by
`id`, and for each id value the subsequence of records carrying it is
exactly the subsequence extracted from the document, in document order
(stable sort); in particular, the concrete input containing Q5 before Q1
yields the id-1 record before the id-5 record. -/
theorem c3_sorted_stable :
    (∀ text : List Char,
      (extract text).Pairwise (fun a b => a.id ≤ b.id) ∧
      ∀ i : Nat,
        (extract text).filter (fun r => r.id == i) =
          ((findAll text).map mkQA).filter (fun r => r.id == i)) ∧
    extract (("Q5：five\nA5：f\n\nQ1：one\nA1：o").toList) =
      [⟨1, ("one").toList, ("o").toList⟩, ⟨5, ("five").toList, ("f").toList⟩] := by
  refine ⟨fun text => ⟨sortQA_pairwise _, fun i => sortQA_filter i _⟩, by decide⟩

lemma mem_sortQA {x : QA} {l : List QA} : x ∈ sortQA l ↔ x ∈ l := by
  induction l with
  | nil => simp [sortQA]
  | cons a l ih => simp [sortQA, mem_insortQA, ih]

/-- Decomposition used by `pyStrip`: stripping leading whitespace leaves
the stripped core followed by the trailing whitespace run. -/
lemma dropWhile_eq_pyStrip_append (l : List Char) :
    l.dropWhile isPySpace =
      pyStrip l ++ ((l.dropWhile isPySpace).reverse.takeWhile isPySpace).reverse := by
  conv_lhs =>
    rw [← List.reverse_reverse (l.dropWhile isPySpace),
      ← List.takeWhile_append_dropWhile isPySpace (l.dropWhile isPySpace).reverse]
  rw [List.reverse_append]
  rfl

/-- The original list is the stripped list surrounded by two (possibly
empty) whitespace runs: `pyStrip` only trims, it never touches the
interior. -/
lemma pyStrip_split (l : List Char) :
    ∃ pre suf, l = pre ++ pyStrip l ++ suf ∧
      (∀ c ∈ pre, isPySpace c = true) ∧ (∀ c ∈ suf, isPySpace c = true) := by
  refine ⟨l.takeWhile isPySpace,
    ((l.dropWhile isPySpace).reverse.takeWhile isPySpace).reverse, ?_, ?_, ?_⟩
  · conv_lhs => rw [← List.takeWhile_append_dropWhile isPySpace l,
      dropWhile_eq_pyStrip_append l]
    rw [List.append_assoc]
  · exact fun c hc => List.mem_takeWhile_imp hc
  · exact fun c hc => List.mem_takeWhile_imp (List.mem_reverse.1 hc)

/-- The first character of a stripped list is never whitespace. -/
lemma pyStrip_head {l : List Char} {c : Char}
    (h : (pyStrip l).head? = some c) : isPySpace c = false := by
  have hd := dropWhile_eq_pyStrip_append l
  have hne : pyStrip l ≠ [] := by
    intro he
    rw [he] at h
    exact Option.noConfusion h
  have h2 : (l.dropWhile isPySpace).head? = some c := by
    rw [hd, List.head?_append, h]
    rfl
  have h3 := List.head?_dropWhile_not isPySpace l
  rw [h2] at h3
  exact h3

/-- The last character of a stripped list is never whitespace. -/
lemma pyStrip_getLast {l : List Char} {c : Char}
    (h : (pyStrip l).getLast? = some c) : isPySpace c = false := by
  have h2 : ((l.dropWhile isPySpace).reverse.dropWhile isPySpace).head? = some c := by
    rw [← List.getLast?_reverse]
    exact h
  have h3 := List.head?_dropWhile_not isPySpace (l.dropWhile isPySpace).reverse
  rw [h2] at h3
  exact h3

lemma not_space_ne_cr {c : Char} (hc : isPySpace c = false) : c ≠ '\r' := by
  intro h
  subst h
  simp [isPySpace] at hc

lemma not_space_ne_lf {c : Char} (hc : isPySpace c = false) : c ≠ '\n' := by
  intro h
  subst h
  simp [isPySpace] at hc

/-- A non-whitespace head character is always emitted unchanged by the
`re.sub` scanner, which then continues in normal mode. -/
lemma subNLGo_cons_not_space {c : Char} (hc : isPySpace c = false)
    (rest : List Char) (skip : Bool) :
    subNLGo skip (c :: rest) = c :: subNLGo false rest := by
  have h1 := not_space_ne_cr hc
  have h2 := not_space_ne_lf hc
  rw [subNLGo.eq_def]
  split <;> simp_all

lemma getLast?_cons_of_ne_nil {c : Char} {l : List Char} (h : l ≠ []) :
    (c :: l).getLast? = l.getLast? := by
  cases l with
  | nil => exact absurd rfl h
  | cons b m => simp

/-- Reduction of the `re.sub` scanner at a head character that does not
begin a line break. -/
lemma subNLGo_cons_eq (skip : Bool) (c0 : Char) (rest : List Char)
    (h1 : ∀ r2 : List Char, c0 = '\r' → rest = '\n' :: r2 → False)
    (h2 : c0 ≠ '\n') :
    subNLGo skip (c0 :: rest) =
      if skip && isPySpace c0 then subNLGo true rest
      else c0 :: subNLGo false rest := by
  rw [subNLGo.eq_def]
  split <;> simp_all

/-- The `re.sub` scanner never deletes the final character when it is not
whitespace. -/
lemma subNLGo_getLast {c : Char} (hc : isPySpace c = false) :
    ∀ (skip : Bool) (l : List Char), l.getLast? = some c →
      (subNLGo skip l).getLast? = some c := by
  intro skip l
  induction skip, l using subNLGo.induct with
  | case1 x => intro h; exact absurd h (by simp)
  | case2 x rest ih =>
    intro h
    have hne : rest ≠ [] := by
      rintro rfl
      simp only [List.getLast?_cons_cons, List.getLast?_singleton,
        Option.some.injEq] at h
      exact not_space_ne_lf hc h.symm
    show (subNLGo true rest).getLast? = some c
    refine ih ?_
    rw [← h, getLast?_cons_of_ne_nil (by simp), getLast?_cons_of_ne_nil hne]
  | case3 x rest ih =>
    intro h
    have hne : rest ≠ [] := by
      rintro rfl
      simp only [List.getLast?_singleton, Option.some.injEq] at h
      exact not_space_ne_lf hc h.symm
    show (subNLGo true rest).getLast? = some c
    refine ih ?_
    rw [← h, getLast?_cons_of_ne_nil hne]
  | case4 skip c0 rest h1 h2 hsk ih =>
    intro h
    have hws : isPySpace c0 = true := by
      have := hsk
      simp only [Bool.and_eq_true] at this
      exact this.2
    have hne : rest ≠ [] := by
      rintro rfl
      simp only [List.getLast?_singleton, Option.some.injEq] at h
      subst h
      rw [hws] at hc
      exact Bool.noConfusion hc
    rw [subNLGo_cons_eq skip c0 rest h1 h2, if_pos hsk]
    refine ih ?_
    rw [← h, getLast?_cons_of_ne_nil hne]
  | case5 skip c0 rest h1 h2 hsk ih =>
    intro h
    rw [subNLGo_cons_eq skip c0 rest h1 h2, if_neg hsk]
    by_cases hrest : rest = []
    · subst hrest
      simpa [subNLGo] using h
    · rw [getLast?_cons_of_ne_nil hrest] at h
      have hres := ih h
      rw [getLast?_cons_of_ne_nil]
      · exact hres
      · intro he
        rw [he] at hres
        exact Option.noConfusion hres

/-- C5: for every input text, every extracted record's `question` and
`answer` have no leading and no trailing whitespace: the first and last
characters, when they exist, are never whitespace characters. -/
theorem c5_fields_trimmed (text : List Char) (r : QA) (h : r ∈ extract text) :
    (∀ c, r.question.head? = some c → isPySpace c = false) ∧
    (∀ c, r.question.getLast? = some c → isPySpace c = false) ∧
    (∀ c, r.answer.head? = some c → isPySpace c = false) ∧
    (∀ c, r.answer.getLast? = some c → isPySpace c = false) := by
  rw [extract] at h
  rcases List.mem_map.1 (mem_sortQA.1 h) with ⟨m, hm, rfl⟩
  refine ⟨fun c hc => pyStrip_head hc, fun c hc => pyStrip_getLast hc, ?_, ?_⟩
  · intro c hc
    cases hg : pyStrip m.g3 with
    | nil =>
      have : (mkQA m).answer = [] := by
        show subNL (pyStrip m.g3) = []
        rw [hg]
        rfl
      rw [this] at hc
      exact Option.noConfusion hc
    | cons c0 rest =>
      have hc0 : isPySpace c0 = false := pyStrip_head (by rw [hg]; rfl)
      have : (mkQA m).answer = c0 :: subNLGo false rest := by
        show subNL (pyStrip m.g3) = _
        rw [hg, subNL, subNLGo_cons_not_space hc0]
      rw [this] at hc
      simp only [List.head?_cons, Option.some.injEq] at hc
      rw [← hc]
      exact hc0
  · intro c hc
    cases hg : pyStrip m.g3 with
    | nil =>
      have : (mkQA m).answer = [] := by
        show subNL (pyStrip m.g3) = []
        rw [hg]
        rfl
      rw [this] at hc
      exact Option.noConfusion hc
    | cons c0 rest =>
      have hlast : (pyStrip m.g3).getLast? = some ((c0 :: rest).getLast (by simp)) := by
        rw [hg]
        exact List.getLast?_eq_getLast _ (by simp)
      have hd : isPySpace ((c0 :: rest).getLast (by simp)) = false :=
        pyStrip_getLast hlast
      have hsub := subNLGo_getLast hd false (pyStrip m.g3) hlast
      have : (mkQA m).answer.getLast? = some ((c0 :: rest).getLast (by simp)) := hsub
      rw [this] at hc
      simp only [Option.some.injEq] at hc
      rw [← hc]
      exact hd

/-- Witness for C5 at a concrete extracted record. -/
theorem c5_fields_trimmed_spot :
    ((⟨1, ("What is Y?").toList, ("Y is simple.").toList⟩ : QA) ∈ extract c1Text) ∧
    ((∀ c, (("What is Y?").toList : List Char).head? = some c → isPySpace c = false) ∧
     (∀ c, (("What is Y?").toList : List Char).getLast? = some c → isPySpace c = false) ∧
     (∀ c, (("Y is simple.").toList : List Char).head? = some c → isPySpace c = false) ∧
     (∀ c, (("Y is simple.").toList : List Char).getLast? = some c → isPySpace c = false)) := by
  constructor
  · decide
  · exact c5_fields_trimmed c1Text ⟨1, ("What is Y?").toList, ("Y is simple.").toList⟩ (by decide)

/-- C10: for every input text, a record's `question` is the matched
question body with only surrounding whitespace trimmed — the newline
removal is applied only to `answer`, so interior line breaks of the
question survive into the output; concretely, a question spanning two
lines keeps its embedded newline. -/
theorem c10_question_keeps_newlines :
    (∀ (text : List Char) (r : QA), r ∈ extract text →
      ∃ m, m ∈ findAll text ∧ r.question = pyStrip m.g2 ∧
        ∃ pre suf, m.g2 = pre ++ r.question ++ suf ∧
          (∀ c ∈ pre, isPySpace c = true) ∧ (∀ c ∈ suf, isPySpace c = true)) ∧
    extract (("Q1：line1\nline2\nA1：x").toList) =
      [⟨1, ("line1\nline2").toList, ("x").toList⟩] := by
  constructor
  · intro text r h
    rw [extract] at h
    rcases List.mem_map.1 (mem_sortQA.1 h) with ⟨m, hm, rfl⟩
    exact ⟨m, hm, rfl, pyStrip_split m.g2⟩
  · decide

lemma suffix_refl (s : List Char) : SuffixOf s s := ⟨[], rfl⟩

lemma suffix_tail {c : Char} {s t : List Char} (h : SuffixOf (c :: s) t) :
    SuffixOf s t := by
  rcases h with ⟨p, hp⟩
  exact ⟨p ++ [c], by simpa using hp⟩

lemma suffix_drop {s t : List Char} (n : Nat) (h : SuffixOf s t) :
    SuffixOf (s.drop n) t := by
  rcases h with ⟨p, hp⟩
  refine ⟨p ++ s.take n, ?_⟩
  rw [List.append_assoc, List.take_append_drop]
  exact hp

lemma subseg_of_take {s t : List Char} (n : Nat) (h : SuffixOf s t) :
    SubSegOf (s.take n) t := by
  rcases h with ⟨p, hp⟩
  refine ⟨p, s.drop n, ?_⟩
  rw [List.append_assoc, List.take_append_drop]
  exact hp

lemma subseg_nil (t : List Char) : SubSegOf [] t := ⟨[], t, by simp⟩

lemma goodCaps_set {t : List Char} {caps : Caps} {n : Nat} {v : List Char}
    (hv : SubSegOf v t) (hg : GoodCaps t caps) :
    GoodCaps t (setCap n v caps) := by
  intro nv hnv
  rcases List.mem_cons.1 hnv with rfl | hnv
  · exact hv
  · exact hg nv hnv

lemma getCap_subseg {t : List Char} {caps : Caps} (hg : GoodCaps t caps)
    (n : Nat) : SubSegOf (getCap n caps) t := by
  induction caps with
  | nil => exact subseg_nil t
  | cons nv rest ih =>
    obtain ⟨m, v⟩ := nv
    rw [getCap]
    split
    · exact hg (m, v) (List.mem_cons_self _ _)
    · exact ih (fun nv h => hg nv (List.mem_cons_of_mem _ h))

lemma firstSome_some {f : Nat → MRes} {ns : List Nat} {res : List Char × Caps}
    (h : firstSome f ns = some res) : ∃ n ∈ ns, f n = some res := by
  induction ns with
  | nil => exact absurd h (by rw [firstSome]; exact fun he => Option.noConfusion he)
  | cons n ns ih =>
    rw [firstSome] at h
    cases hf : f n with
    | some r2 =>
      rw [hf] at h
      cases h
      exact ⟨n, List.mem_cons_self _ _, hf⟩
    | none =>
      rw [hf] at h
      rcases ih h with ⟨n2, hn2, hfn2⟩
      exact ⟨n2, List.mem_cons_of_mem _ hn2, hfn2⟩

/-- Scanning invariant of the matcher: starting from a suffix of the text
with substring-only captures, and a continuation that turns any such state
into results satisfying `R`, every successful match satisfies `R`.  In
particular every capture ever recorded is a contiguous substring of the
text. -/
lemma matchR_inv (t : List Char) :
    ∀ (r : Regex) (R : List Char × Caps → Prop) (s : List Char) (caps : Caps)
      (k : List Char → Caps → MRes),
      SuffixOf s t → GoodCaps t caps →
      (∀ s2 c2, SuffixOf s2 t → GoodCaps t c2 →
        ∀ res, k s2 c2 = some res → R res) →
      ∀ res, matchR r s caps k = some res → R res := by
  intro r
  induction r with
  | eps =>
    intro R s caps k hs hg hk res hres
    exact hk s caps hs hg res hres
  | cls p =>
    intro R s caps k hs hg hk res hres
    match s, hres with
    | c :: rest, hres =>
      rw [matchR] at hres
      by_cases hp : p c
      · rw [if_pos hp] at hres
        exact hk rest caps (suffix_tail hs) hg res hres
      · rw [if_neg hp] at hres
        exact Option.noConfusion hres
  | opt p =>
    intro R s caps k hs hg hk res hres
    match s, hres with
    | [], hres => exact hk [] caps hs hg res hres
    | c :: rest, hres =>
      rw [matchR] at hres
      by_cases hp : p c
      · rw [if_pos hp] at hres
        cases h1 : k rest caps with
        | some r2 =>
          rw [h1] at hres
          cases hres
          exact hk rest caps (suffix_tail hs) hg res h1
        | none =>
          rw [h1] at hres
          exact hk (c :: rest) caps hs hg res hres
      · rw [if_neg hp] at hres
        exact hk (c :: rest) caps hs hg res hres
  | starG p =>
    intro R s caps k hs hg hk res hres
    rw [matchR] at hres
    rcases firstSome_some hres with ⟨n, _, hfn⟩
    exact hk (s.drop n) caps (suffix_drop n hs) hg res hfn
  | plusG p =>
    intro R s caps k hs hg hk res hres
    rw [matchR] at hres
    rcases firstSome_some hres with ⟨n, _, hfn⟩
    exact hk (s.drop n) caps (suffix_drop n hs) hg res hfn
  | plusL p =>
    intro R s caps k hs hg hk res hres
    rw [matchR] at hres
    rcases firstSome_some hres with ⟨n, _, hfn⟩
    exact hk (s.drop n) caps (suffix_drop n hs) hg res hfn
  | cat r1 r2 ih1 ih2 =>
    intro R s caps k hs hg hk res hres
    rw [matchR] at hres
    refine ih1 R s caps _ hs hg ?_ res hres
    intro s2 c2 hs2 hg2 res2 hres2
    exact ih2 R s2 c2 k hs2 hg2 hk res2 hres2
  | alt r1 r2 ih1 ih2 =>
    intro R s caps k hs hg hk res hres
    rw [matchR] at hres
    cases h1 : matchR r1 s caps k with
    | some r2v =>
      rw [h1] at hres
      cases hres
      exact ih1 R s caps k hs hg hk res h1
    | none =>
      rw [h1] at hres
      exact ih2 R s caps k hs hg hk res hres
  | look r ih =>
    intro R s caps k hs hg hk res hres
    rw [matchR] at hres
    cases h1 : matchR r s caps (fun s2 c2 => some (s2, c2)) with
    | none =>
      rw [h1] at hres
      exact Option.noConfusion hres
    | some pr =>
      obtain ⟨s1, c1⟩ := pr
      rw [h1] at hres
      have hgood : GoodCaps t c1 := by
        refine ih (fun res2 => GoodCaps t res2.2) s caps _ hs hg ?_ (s1, c1) h1
        intro s2 c2 hs2 hg2 res2 hres2
        cases hres2
        exact hg2
      exact hk s c1 hs hgood res hres
  | group n r ih =>
    intro R s caps k hs hg hk res hres
    rw [matchR] at hres
    refine ih R s caps _ hs hg ?_ res hres
    intro s2 c2 hs2 hg2 res2 hres2
    exact hk s2 (setCap n (s.take (s.length - s2.length)) c2) hs2
      (goodCaps_set (subseg_of_take _ hs) hg2) res2 hres2
  | endA =>
    intro R s caps k hs hg hk res hres
    match s, hres with
    | [], hres => exact hk [] caps hs hg res hres

/-- Every capture of a successful anchored match attempt at a suffix of
the text is a contiguous substring of the text. -/
lemma tryMatch_goodCaps {s t : List Char} {res : List Char × Caps}
    (hs : SuffixOf s t) (h : tryMatch s = some res) : GoodCaps t res.2 := by
  refine matchR_inv t qaPattern (fun res2 => GoodCaps t res2.2) s [] _ hs
    (fun nv hnv => absurd hnv (List.not_mem_nil nv)) ?_ res h
  intro s2 c2 hs2 hg2 res2 hres2
  cases hres2
  exact hg2

/-- Every capture group of every match found by the scan is a contiguous
substring of the text. -/
lemma findAll_subseg {t : List Char} :
    ∀ (fuel : Nat) (s : List Char), SuffixOf s t →
      ∀ m ∈ findAllAux fuel s,
        SubSegOf m.g1 t ∧ SubSegOf m.g2 t ∧ SubSegOf m.g3 t := by
  intro fuel
  induction fuel with
  | zero => intro s _ m hm; exact absurd hm (List.not_mem_nil m)
  | succ fuel ih =>
    intro s hs m hm
    match s, hm with
    | [], hm =>
      rw [findAllAux] at hm
      cases h1 : tryMatch [] with
      | some res =>
        rw [h1] at hm
        obtain ⟨rem, c⟩ := res
        rcases List.mem_singleton.1 hm with rfl
        have hg := tryMatch_goodCaps hs h1
        exact ⟨getCap_subseg hg 1, getCap_subseg hg 2, getCap_subseg hg 3⟩
      | none =>
        rw [h1] at hm
        exact absurd hm (List.not_mem_nil m)
    | c0 :: tl, hm =>
      rw [findAllAux] at hm
      cases h1 : tryMatch (c0 :: tl) with
      | some res =>
        rw [h1] at hm
        obtain ⟨rem, c⟩ := res
        rcases List.mem_cons.1 hm with rfl | hm
        · have hg := tryMatch_goodCaps hs h1
          exact ⟨getCap_subseg hg 1, getCap_subseg hg 2, getCap_subseg hg 3⟩
        · exact ih _ (suffix_drop _ hs) m hm
      | none =>
        rw [h1] at hm
        exact ih tl (suffix_tail hs) m hm

lemma subNLGo_no_lf : ∀ (skip : Bool) (l : List Char), '\n' ∉ subNLGo skip l := by
  intro skip l
  induction skip, l using subNLGo.induct with
  | case1 x => simp [subNLGo]
  | case2 x rest ih => exact ih
  | case3 x rest ih => exact ih
  | case4 skip c0 rest h1 h2 hsk ih =>
    rw [subNLGo_cons_eq skip c0 rest h1 h2, if_pos hsk]
    exact ih
  | case5 skip c0 rest h1 h2 hsk ih =>
    rw [subNLGo_cons_eq skip c0 rest h1 h2, if_neg hsk]
    intro hmem
    rcases List.mem_cons.1 hmem with heq | hmem2
    · exact h2 heq.symm
    · exact ih hmem2

lemma crlfOnly_tail {c : Char} {rest : List Char}
    (h : crlfOnly (c :: rest) = true) : crlfOnly rest = true := by
  rw [crlfOnly.eq_def] at h
  split at h
  · exact absurd h (by simp_all)
  · split at h
    · simp_all
    · exact absurd h (by simp)
  · simp_all

lemma crlfOnly_split {t : List Char} (h : crlfOnly t = true) :
    ∀ (u v : List Char), t = u ++ '\r' :: v → ∃ w, v = '\n' :: w := by
  intro u
  induction u generalizing t with
  | nil =>
    intro v hv
    subst hv
    rw [crlfOnly.eq_def] at h
    split at h
    · simp_all
    · split at h
      · rename_i heq2
        rcases heq2 with ⟨rest2, hrest⟩
        simp_all
      · exact absurd h (by simp)
    · rename_i hne heq
      simp only [List.nil_append, List.cons.injEq] at heq
      exact absurd heq.1.symm hne
  | cons c u ih =>
    intro v hv
    subst hv
    exact ih (crlfOnly_tail h) v rfl

lemma subNLGo_no_cr :
    ∀ (skip : Bool) (l : List Char),
      (∀ pre post, l = pre ++ '\r' :: post → ∃ w, post = '\n' :: w) →
      '\r' ∉ subNLGo skip l := by
  intro skip l
  induction skip, l using subNLGo.induct with
  | case1 x => intro _; simp [subNLGo]
  | case2 x rest ih =>
    intro hp
    show '\r' ∉ subNLGo true rest
    refine ih ?_
    intro pre post hsplit
    refine hp ('\r' :: '\n' :: pre) post ?_
    rw [hsplit]
    rfl
  | case3 x rest ih =>
    intro hp
    show '\r' ∉ subNLGo true rest
    refine ih ?_
    intro pre post hsplit
    refine hp ('\n' :: pre) post ?_
    rw [hsplit]
    rfl
  | case4 skip c0 rest h1 h2 hsk ih =>
    intro hp
    rw [subNLGo_cons_eq skip c0 rest h1 h2, if_pos hsk]
    refine ih ?_
    intro pre post hsplit
    refine hp (c0 :: pre) post ?_
    rw [hsplit]
    rfl
  | case5 skip c0 rest h1 h2 hsk ih =>
    intro hp
    rw [subNLGo_cons_eq skip c0 rest h1 h2, if_neg hsk]
    intro hmem
    rcases List.mem_cons.1 hmem with heq | hmem2
    · rcases hp [] rest (by rw [← heq]; rfl) with ⟨w, hw⟩
      exact h1 w heq.symm hw
    · refine ih ?_ hmem2
      intro pre post hsplit
      refine hp (c0 :: pre) post ?_
      rw [hsplit]
      rfl

/-- C4: on every input text whose line endings are LF or CRLF (every
carriage return is followed by a line feed), every extracted record's
answer contains no line-break characters at all: each line break of the
matched answer body is deleted together with the whitespace run following
it. -/
theorem c4_answers_no_linebreaks (text : List Char)
    (hcrlf : crlfOnly text = true) (r : QA) (h : r ∈ extract text) :
    '\n' ∉ r.answer ∧ '\r' ∉ r.answer := by
  rw [extract] at h
  rcases List.mem_map.1 (mem_sortQA.1 h) with ⟨m, hm, rfl⟩
  have hsub : SubSegOf m.g3 text :=
    (findAll_subseg (text.length + 1) text (suffix_refl text) m hm).2.2
  constructor
  · exact subNLGo_no_lf false (pyStrip m.g3)
  · refine subNLGo_no_cr false (pyStrip m.g3) ?_
    intro pre post hsplit
    rcases hsub with ⟨P, S, hPS⟩
    rcases pyStrip_split m.g3 with ⟨pre2, suf2, hg3, _, _⟩
    cases post with
    | nil =>
      have hlast : (pyStrip m.g3).getLast? = some '\r' := by
        rw [hsplit]
        exact List.getLast?_concat _
      have := pyStrip_getLast hlast
      simp [isPySpace] at this
    | cons x post2 =>
      have hx : ∃ w, (x :: (post2 ++ (suf2 ++ S))) = '\n' :: w := by
        refine crlfOnly_split hcrlf (P ++ (pre2 ++ pre)) _ ?_
        rw [← hPS, hg3, hsplit]
        simp [List.append_assoc]
      rcases hx with ⟨w, hw⟩
      have hxnl : x = '\n' := by
        have := congrArg List.head? hw
        simpa using this
      exact ⟨post2, by rw [hxnl]⟩

/-- Witness for C4: the example document (LF line endings) and its first
record. -/
theorem c4_answers_no_linebreaks_spot :
    crlfOnly c1Text = true ∧
    ((⟨1, ("What is Y?").toList, ("Y is simple.").toList⟩ : QA) ∈ extract c1Text) ∧
    ('\n' ∉ (("Y is simple.").toList : List Char) ∧
     '\r' ∉ (("Y is simple.").toList : List Char)) := by
  refine ⟨by decide, by decide, ?_⟩
  exact c4_answers_no_linebreaks c1Text (by decide)
    ⟨1, ("What is Y?").toList, ("Y is simple.").toList⟩ (by decide)

/-- Witness for C10: the two-line-question document, its concrete record,
and the instantiated conclusion. -/
theorem c10_question_keeps_newlines_spot :
    ((⟨1, ("line1\nline2").toList, ("x").toList⟩ : QA) ∈
      extract (("Q1：line1\nline2\nA1：x").toList)) ∧
    (∃ m, m ∈ findAll (("Q1：line1\nline2\nA1：x").toList) ∧
      (("line1\nline2").toList : List Char) = pyStrip m.g2 ∧
      ∃ pre suf, m.g2 = pre ++ ("line1\nline2").toList ++ suf ∧
        (∀ c ∈ pre, isPySpace c = true) ∧ (∀ c ∈ suf, isPySpace c = true)) := by
  constructor
  · decide
  · exact c10_question_keeps_newlines.1 (("Q1：line1\nline2\nA1：x").toList)
      ⟨1, ("line1\nline2").toList, ("x").toList⟩ (by decide)

/-- C1: on the exact example document, extraction yields exactly the two
records {id 1, "What is Y?", "Y is simple."} then {id 2, "What is X?",
"X isa thing."}, in this order, the two answer lines joined with no space
inserted. -/
theorem c1_example_document :
    extract c1Text =
      [⟨1, ("What is Y?").toList, ("Y is simple.").toList⟩,
       ⟨2, ("What is X?").toList, ("X isa thing.").toList⟩] := by
  decide

/-- C7: the extraction core is a total function: on every input text it
returns a record sequence, and when the pattern scan finds zero matches the
result is the empty sequence rather than a failure. -/
theorem c7_no_matches_empty (text : List Char) (h : findAll text = []) :
    extract text = [] := by
  simp [extract, h, sortQA]

/-- Witness for C7 at two concrete inputs: the empty document and an
entirely non-conforming document. -/
theorem c7_no_matches_empty_spot :
    findAll [] = [] ∧ extract [] = [] ∧
      findAll (("hello world").toList) = [] ∧
      extract (("hello world").toList) = [] :=
  ⟨by decide, c7_no_matches_empty [] (by decide), by decide,
    c7_no_matches_empty (("hello world").toList) (by decide)⟩

/-- C9: whenever the input document cannot be located or read, the run is
fatal: the process exits with status 1 (non-zero), prints a message naming
the missing path, and no output file is produced. -/
theorem c9_missing_input_fatal (fs : String → Option String)
    (input_file output_file : String) (h : fs input_file = none) :
    (convert_txt_to_json fs input_file output_file).exitCode = 1 ∧
    (convert_txt_to_json fs input_file output_file).stdout =
      ["錯誤：找不到檔案 " ++ input_file] ∧
    (convert_txt_to_json fs input_file output_file).written = none := by
  simp [convert_txt_to_json, h]

/-- Witness for C9: a filesystem with no readable files, a concrete input
path and output path. -/
theorem c9_missing_input_fatal_spot :
    ((fun _ => none : String → Option String) "合庫常見QA.txt" = none) ∧
    ((convert_txt_to_json (fun _ => none) "合庫常見QA.txt" "faq.json").exitCode = 1 ∧
     (convert_txt_to_json (fun _ => none) "合庫常見QA.txt" "faq.json").stdout =
       ["錯誤：找不到檔案 " ++ "合庫常見QA.txt"] ∧
     (convert_txt_to_json (fun _ => none) "合庫常見QA.txt" "faq.json").written = none) :=
  ⟨rfl, c9_missing_input_fatal (fun _ => none) "合庫常見QA.txt" "faq.json" rfl⟩

lemma matchR_cat (r1 r2 : Regex) (s : List Char) (caps : Caps)
    (k : List Char → Caps → MRes) :
    matchR (.cat r1 r2) s caps k =
      matchR r1 s caps (fun s2 c2 => matchR r2 s2 c2 k) := rfl

lemma matchR_cls_cons (p : Char → Bool) (c : Char) (rest : List Char)
    (caps : Caps) (k : List Char → Caps → MRes) :
    matchR (.cls p) (c :: rest) caps k =
      if p c then k rest caps else none := rfl

lemma matchR_cls_nil (p : Char → Bool) (caps : Caps)
    (k : List Char → Caps → MRes) :
    matchR (.cls p) [] caps k = none := rfl

lemma matchR_opt_cons (p : Char → Bool) (c : Char) (rest : List Char)
    (caps : Caps) (k : List Char → Caps → MRes) :
    matchR (.opt p) (c :: rest) caps k =
      if p c then
        (match k rest caps with
         | some res => some res
         | none => k (c :: rest) caps)
      else k (c :: rest) caps := rfl

lemma matchR_opt_nil (p : Char → Bool) (caps : Caps)
    (k : List Char → Caps → MRes) :
    matchR (.opt p) [] caps k = k [] caps := rfl

lemma matchR_endA_nil (caps : Caps) (k : List Char → Caps → MRes) :
    matchR .endA [] caps k = k [] caps := rfl

lemma matchR_endA_cons (c : Char) (rest : List Char) (caps : Caps)
    (k : List Char → Caps → MRes) :
    matchR .endA (c :: rest) caps k = none := rfl

lemma matchR_group_eq (n : Nat) (r : Regex) (s : List Char) (caps : Caps)
    (k : List Char → Caps → MRes) :
    matchR (.group n r) s caps k =
      matchR r s caps
        (fun s2 c2 => k s2 (setCap n (s.take (s.length - s2.length)) c2)) := rfl

lemma matchR_alt_eq (r1 r2 : Regex) (s : List Char) (caps : Caps)
    (k : List Char → Caps → MRes) :
    matchR (.alt r1 r2) s caps k =
      match matchR r1 s caps k with
      | some res => some res
      | none => matchR r2 s caps k := rfl

lemma matchR_look_eq (r : Regex) (s : List Char) (caps : Caps)
    (k : List Char → Caps → MRes) :
    matchR (.look r) s caps k =
      match matchR r s caps (fun s2 c2 => some (s2, c2)) with
      | some (_, c2) => k s c2
      | none => none := rfl

lemma matchR_starG_eq (p : Char → Bool) (s : List Char) (caps : Caps)
    (k : List Char → Caps → MRes) :
    matchR (.starG p) s caps k =
      firstSome (fun n => k (s.drop n) caps)
        ((List.range ((s.takeWhile p).length + 1)).reverse) := rfl

lemma matchR_plusG_eq (p : Char → Bool) (s : List Char) (caps : Caps)
    (k : List Char → Caps → MRes) :
    matchR (.plusG p) s caps k =
      firstSome (fun n => k (s.drop n) caps)
        ((List.range' 1 (s.takeWhile p).length).reverse) := rfl

lemma matchR_plusL_eq (p : Char → Bool) (s : List Char) (caps : Caps)
    (k : List Char → Caps → MRes) :
    matchR (.plusL p) s caps k =
      firstSome (fun n => k (s.drop n) caps)
        (List.range' 1 (s.takeWhile p).length) := rfl

lemma eatNL?_cons_ne {c : Char} (h1 : c ≠ '\r') (h2 : c ≠ '\n')
    (rest : List Char) : eatNL? (c :: rest) = none := by
  rw [eatNL?.eq_def]
  split <;> simp_all

lemma eatNL?_cr_ne {c2 : Char} (h2 : c2 ≠ '\n') (rest : List Char) :
    eatNL? ('\r' :: c2 :: rest) = none := by
  rw [eatNL?.eq_def]
  split <;> simp_all

/-- Evaluation of a `\r?\n` prefix of the pattern followed by a rest `R`:
it consumes exactly what `eatNL?` reads, deterministically. -/
lemma matchR_nl_eq (R : Regex) (s : List Char) (caps : Caps)
    (k : List Char → Caps → MRes) :
    matchR (.cat (.opt (· == '\r')) (.cat (.cls (· == '\n')) R)) s caps k =
      match eatNL? s with
      | some s2 => matchR R s2 caps k
      | none => none := by
  rcases s with _ | ⟨c, s0⟩
  · rw [matchR_cat, matchR_opt_nil, matchR_cat, matchR_cls_nil]
    rfl
  by_cases hc : c = '\r'
  · subst hc
    rcases s0 with _ | ⟨c2, s1⟩
    · rw [matchR_cat, matchR_opt_cons, if_pos (by rfl)]
      rw [show eatNL? ['\r'] = none from rfl]
      show (match matchR (.cat (.cls (· == '\n')) R) [] caps k with
        | some res => some res
        | none => matchR (.cat (.cls (· == '\n')) R) ['\r'] caps k) = none
      rw [matchR_cat, matchR_cls_nil, matchR_cat, matchR_cls_cons,
        if_neg (by simp)]
    by_cases hc2 : c2 = '\n'
    · subst hc2
      rw [matchR_cat, matchR_opt_cons, if_pos (by rfl)]
      rw [show eatNL? ('\r' :: '\n' :: s1) = some s1 from rfl]
      show (match matchR (.cat (.cls (· == '\n')) R) ('\n' :: s1) caps k with
        | some res => some res
        | none => matchR (.cat (.cls (· == '\n')) R) ('\r' :: '\n' :: s1) caps k) =
        matchR R s1 caps k
      rw [matchR_cat, matchR_cls_cons, if_pos (by rfl)]
      show (match matchR R s1 caps k with
        | some res => some res
        | none => matchR (.cat (.cls (· == '\n')) R) ('\r' :: '\n' :: s1) caps k) =
        matchR R s1 caps k
      rw [matchR_cat, matchR_cls_cons, if_neg (by simp)]
      cases matchR R s1 caps k <;> rfl
    · rw [matchR_cat, matchR_opt_cons, if_pos (by rfl),
        eatNL?_cr_ne hc2]
      show (match matchR (.cat (.cls (· == '\n')) R) (c2 :: s1) caps k with
        | some res => some res
        | none => matchR (.cat (.cls (· == '\n')) R) ('\r' :: c2 :: s1) caps k) = none
      rw [matchR_cat, matchR_cls_cons, if_neg (by simpa using hc2),
        matchR_cat, matchR_cls_cons, if_neg (by simp)]
  by_cases hcn : c = '\n'
  · subst hcn
    rw [matchR_cat, matchR_opt_cons, if_neg (by simp),
      show eatNL? ('\n' :: s0) = some s0 from rfl]
    rw [matchR_cat, matchR_cls_cons, if_pos (by rfl)]
  · rw [matchR_cat, matchR_opt_cons, if_neg (by simpa using hc),
      eatNL?_cons_ne hc hcn]
    rw [matchR_cat, matchR_cls_cons, if_neg (by simpa using hcn)]

/-- The same evaluation for a trailing `\r?\n` with nothing after it
(the last unit of the blank-line alternative). -/
lemma matchR_nl_end_eq (s : List Char) (caps : Caps)
    (k : List Char → Caps → MRes) :
    matchR (.cat (.opt (· == '\r')) (.cls (· == '\n'))) s caps k =
      match eatNL? s with
      | some s2 => k s2 caps
      | none => none := by
  rcases s with _ | ⟨c, s0⟩
  · rw [matchR_cat, matchR_opt_nil, matchR_cls_nil]
    rfl
  by_cases hc : c = '\r'
  · subst hc
    rcases s0 with _ | ⟨c2, s1⟩
    · rw [matchR_cat, matchR_opt_cons, if_pos (by rfl)]
      rw [show eatNL? ['\r'] = none from rfl]
      show (match matchR (.cls (· == '\n')) [] caps k with
        | some res => some res
        | none => matchR (.cls (· == '\n')) ['\r'] caps k) = none
      rw [matchR_cls_nil, matchR_cls_cons, if_neg (by simp)]
    by_cases hc2 : c2 = '\n'
    · subst hc2
      rw [matchR_cat, matchR_opt_cons, if_pos (by rfl)]
      rw [show eatNL? ('\r' :: '\n' :: s1) = some s1 from rfl]
      show (match matchR (.cls (· == '\n')) ('\n' :: s1) caps k with
        | some res => some res
        | none => matchR (.cls (· == '\n')) ('\r' :: '\n' :: s1) caps k) =
        k s1 caps
      rw [matchR_cls_cons, if_pos (by rfl), matchR_cls_cons, if_neg (by simp)]
      cases k s1 caps <;> rfl
    · rw [matchR_cat, matchR_opt_cons, if_pos (by rfl), eatNL?_cr_ne hc2]
      show (match matchR (.cls (· == '\n')) (c2 :: s1) caps k with
        | some res => some res
        | none => matchR (.cls (· == '\n')) ('\r' :: c2 :: s1) caps k) = none
      rw [matchR_cls_cons, if_neg (by simpa using hc2),
        matchR_cls_cons, if_neg (by simp)]
  by_cases hcn : c = '\n'
  · subst hcn
    rw [matchR_cat, matchR_opt_cons, if_neg (by simp),
      show eatNL? ('\n' :: s0) = some s0 from rfl]
    rw [matchR_cls_cons, if_pos (by rfl)]
  · rw [matchR_cat, matchR_opt_cons, if_neg (by simpa using hc),
      eatNL?_cons_ne hc hcn]
    rw [matchR_cls_cons, if_neg (by simpa using hcn)]

lemma firstSome_none {f : Nat → MRes} {ns : List Nat}
    (h : ∀ n ∈ ns, f n = none) : firstSome f ns = none := by
  induction ns with
  | nil => rfl
  | cons n ns ih =>
    rw [firstSome, h n (List.mem_cons_self _ _)]
    exact ih (fun n2 hn2 => h n2 (List.mem_cons_of_mem _ hn2))

lemma takeWhile_anyDotAll (l : List Char) : l.takeWhile anyDotAll = l := by
  induction l with
  | nil => rfl
  | cons c rest ih => simp [List.takeWhile_cons, anyDotAll, ih]

lemma drop_takeWhile_length (p : Char → Bool) (l : List Char) :
    l.drop (l.takeWhile p).length = l.dropWhile p := by
  have h := List.takeWhile_append_dropWhile p l
  calc l.drop (l.takeWhile p).length
      = (l.takeWhile p ++ l.dropWhile p).drop (l.takeWhile p).length := by
        rw [h]
    _ = l.dropWhile p := List.drop_left _ _

lemma drop_lt_takeWhile {p : Char → Bool} :
    ∀ (l : List Char) (n : Nat), n < (l.takeWhile p).length →
      ∃ c cs, l.drop n = c :: cs ∧ p c = true := by
  intro l
  induction l with
  | nil => intro n h; simp [List.takeWhile] at h
  | cons c0 rest ih =>
    intro n h
    by_cases hp : p c0
    · rw [List.takeWhile_cons, if_pos hp] at h
      cases n with
      | zero => exact ⟨c0, rest, rfl, hp⟩
      | succ n2 =>
        simp only [List.length_cons, Nat.succ_lt_succ_iff] at h
        exact ih n2 h
    · rw [List.takeWhile_cons, if_neg hp] at h
      simp at h

lemma digit_not_colon {c : Char} (h : isAsciiDigit c = true) :
    isColon c = false := by
  rw [isAsciiDigit] at h
  simp only [Bool.and_eq_true, decide_eq_true_eq] at h
  rw [isColon]
  have h1 : ¬ (c = '：') := by
    intro he
    subst he
    simp at h
  have h2 : ¬ (c = ':') := by
    intro he
    subst he
    simp at h
  simp [h1, h2]

lemma range'_one_reverse (m : Nat) :
    (List.range' 1 (m + 1)).reverse = (m + 1) :: (List.range' 1 m).reverse := by
  rw [List.range'_1_concat]
  simp [Nat.add_comm]

lemma matchR_qMark_true {u : List Char} (hq : qMarkAt u = true) (caps : Caps) :
    ∃ v, matchR qMarkRe u caps (fun s2 c2 => some (s2, c2)) = some (v, caps) := by
  rw [qMarkAt.eq_def] at hq
  split at hq
  · rename_i rest
    simp only [Bool.and_eq_true, decide_eq_true_eq] at hq
    obtain ⟨hm, hcolon⟩ := hq
    rw [qMarkRe, matchR_cat, matchR_cls_cons, if_pos (by rfl)]
    rw [matchR_cat, matchR_plusG_eq]
    obtain ⟨m2, hm2⟩ : ∃ m2, (rest.takeWhile isAsciiDigit).length = m2 + 1 :=
      ⟨(rest.takeWhile isAsciiDigit).length - 1, by omega⟩
    rw [hm2, range'_one_reverse, firstSome]
    have hdrop : rest.drop (m2 + 1) = rest.dropWhile isAsciiDigit := by
      rw [← hm2]
      exact drop_takeWhile_length _ _
    cases hdw : rest.dropWhile isAsciiDigit with
    | nil => rw [hdw] at hcolon; exact absurd hcolon (by simp)
    | cons c cs =>
      rw [hdw] at hcolon
      rw [hdrop, hdw, matchR_cls_cons, if_pos hcolon]
      exact ⟨cs, rfl⟩
  · exact absurd hq (by simp)

lemma matchR_qMark_false {u : List Char} (hq : qMarkAt u = false) (caps : Caps) :
    matchR qMarkRe u caps (fun s2 c2 => some (s2, c2)) = none := by
  rw [qMarkAt.eq_def] at hq
  split at hq
  · rename_i rest
    simp only [Bool.and_eq_false_iff] at hq
    rw [qMarkRe, matchR_cat, matchR_cls_cons, if_pos (by rfl)]
    rw [matchR_cat, matchR_plusG_eq]
    refine firstSome_none ?_
    intro n hn
    rw [List.mem_reverse, List.mem_range'_1] at hn
    obtain ⟨hn1, hn2⟩ := hn
    by_cases hntop : n = (rest.takeWhile isAsciiDigit).length
    · subst hntop
      rw [drop_takeWhile_length]
      rcases hq with hq | hq
      · simp only [decide_eq_false_iff_not] at hq
        have hfalse : False := by omega
        exact hfalse.elim
      · cases hdw : rest.dropWhile isAsciiDigit with
        | nil => exact matchR_cls_nil _ _ _
        | cons c cs =>
          rw [hdw] at hq
          rw [matchR_cls_cons, if_neg (by simp_all)]
    · have hlt : n < (rest.takeWhile isAsciiDigit).length := by omega
      rcases drop_lt_takeWhile rest n hlt with ⟨c, cs, hdrop, hdig⟩
      rw [hdrop, matchR_cls_cons, if_neg (by simp [digit_not_colon hdig])]
  · rename_i hnotQ
    rw [qMarkRe, matchR_cat]
    cases u with
    | nil => exact matchR_cls_nil _ _ _
    | cons c0 rest =>
      rw [matchR_cls_cons, if_neg ?_]
      intro habs
      simp only [beq_iff_eq] at habs
      exact hnotQ rest (by rw [habs])

lemma eatNL?_some_ne_nil {s s1 : List Char} (h : eatNL? s = some s1) :
    s ≠ [] := by
  intro he
  subst he
  exact Option.noConfusion h

lemma matchR_B_true {s : List Char} (hb : boundaryHolds s = true)
    (caps : Caps) :
    ∃ s2, matchR (.alt boundaryQ (.alt boundaryNL .endA)) s caps
      (fun u c2 => some (u, c2)) = some (s2, caps) := by
  cases h1 : eatNL? s with
  | none =>
    simp only [boundaryHolds, h1] at hb
    have hs : s = [] := by
      cases s with
      | nil => rfl
      | cons c cs => exact absurd hb (by simp)
    subst hs
    refine ⟨[], ?_⟩
    simp only [matchR_alt_eq, boundaryQ, boundaryNL, matchR_nl_eq, h1,
      matchR_endA_nil]
  | some s1 =>
    cases h2 : eatNL? s1 with
    | none =>
      simp only [boundaryHolds, h1, h2] at hb
      exact absurd hb (by simp)
    | some s2 =>
      simp only [boundaryHolds, h1, h2] at hb
      by_cases hq : qMarkAt s2 = true
      · rcases matchR_qMark_true hq caps with ⟨v, hv⟩
        refine ⟨v, ?_⟩
        have hq' : matchR boundaryQ s caps (fun u c2 => some (u, c2)) =
            some (v, caps) := by
          show matchR (.cat (.opt (· == '\r')) (.cat (.cls (· == '\n'))
            (.cat (.opt (· == '\r')) (.cat (.cls (· == '\n')) qMarkRe)))) s
            caps _ = some (v, caps)
          simp only [matchR_nl_eq, h1, h2, hv]
        simp only [matchR_alt_eq, hq']
      · replace hq : qMarkAt s2 = false := by
          simpa using hq
        have hnl : (eatNL? s2).isSome = true := by
          simp only [hq, Bool.false_or] at hb
          exact hb
        cases h3 : eatNL? s2 with
        | none =>
          rw [h3] at hnl
          exact absurd hnl (by simp)
        | some s3 =>
          refine ⟨s3, ?_⟩
          have hq' : matchR boundaryQ s caps (fun u c2 => some (u, c2)) =
              none := by
            show matchR (.cat (.opt (· == '\r')) (.cat (.cls (· == '\n'))
              (.cat (.opt (· == '\r')) (.cat (.cls (· == '\n')) qMarkRe)))) s
              caps _ = none
            simp only [matchR_nl_eq, h1, h2, matchR_qMark_false hq caps]
          have hnl' : matchR boundaryNL s caps (fun u c2 => some (u, c2)) =
              some (s3, caps) := by
            show matchR (.cat (.opt (· == '\r')) (.cat (.cls (· == '\n'))
              (.cat (.opt (· == '\r')) (.cat (.cls (· == '\n'))
                (.cat (.opt (· == '\r')) (.cls (· == '\n'))))))) s
              caps _ = some (s3, caps)
            simp only [matchR_nl_eq, matchR_nl_end_eq, h1, h2, h3]
          simp only [matchR_alt_eq, hq', hnl']

lemma matchR_B_false {s : List Char} (hb : boundaryHolds s = false)
    (caps : Caps) :
    matchR (.alt boundaryQ (.alt boundaryNL .endA)) s caps
      (fun u c2 => some (u, c2)) = none := by
  have hQshape : matchR boundaryQ s caps (fun u c2 => some (u, c2)) =
      matchR (.cat (.opt (· == '\r')) (.cat (.cls (· == '\n'))
        (.cat (.opt (· == '\r')) (.cat (.cls (· == '\n')) qMarkRe)))) s
        caps (fun u c2 => some (u, c2)) := rfl
  have hNshape : matchR boundaryNL s caps (fun u c2 => some (u, c2)) =
      matchR (.cat (.opt (· == '\r')) (.cat (.cls (· == '\n'))
        (.cat (.opt (· == '\r')) (.cat (.cls (· == '\n'))
          (.cat (.opt (· == '\r')) (.cls (· == '\n'))))))) s
        caps (fun u c2 => some (u, c2)) := rfl
  cases h1 : eatNL? s with
  | none =>
    simp only [boundaryHolds, h1] at hb
    cases s with
    | nil => exact absurd hb (by simp)
    | cons c cs =>
      simp only [matchR_alt_eq, hQshape, hNshape, matchR_nl_eq, h1,
        matchR_endA_cons]
  | some s1 =>
    have hs : s ≠ [] := eatNL?_some_ne_nil h1
    cases h2 : eatNL? s1 with
    | none =>
      cases s with
      | nil => exact absurd rfl hs
      | cons c cs =>
        simp only [matchR_alt_eq, hQshape, hNshape, matchR_nl_eq, h1, h2,
          matchR_endA_cons]
    | some s2 =>
      simp only [boundaryHolds, h1, h2] at hb
      simp only [Bool.or_eq_false_iff] at hb
      obtain ⟨hq, hnl⟩ := hb
      have h3 : eatNL? s2 = none := by
        cases h3 : eatNL? s2 with
        | none => rfl
        | some s3 =>
          rw [h3] at hnl
          exact absurd hnl (by simp)
      cases s with
      | nil => exact absurd rfl hs
      | cons c cs =>
        simp only [matchR_alt_eq, hQshape, hNshape, matchR_nl_eq,
          matchR_nl_end_eq, h1, h2, h3, matchR_qMark_false hq caps,
          matchR_endA_cons]

/-- When the boundary holds, the lookahead is transparent: it consumes
nothing and keeps the captures. -/
lemma matchR_lookB_true {s : List Char} (hb : boundaryHolds s = true)
    (caps : Caps) (k : List Char → Caps → MRes) :
    matchR lookB s caps k = k s caps := by
  rw [lookB, matchR_look_eq]
  rcases matchR_B_true hb caps with ⟨s2, h2⟩
  rw [h2]

/-- When the boundary fails, so does the lookahead. -/
lemma matchR_lookB_false {s : List Char} (hb : boundaryHolds s = false)
    (caps : Caps) (k : List Char → Caps → MRes) :
    matchR lookB s caps k = none := by
  rw [lookB, matchR_look_eq, matchR_B_false hb caps]

lemma firstSome_range'_min {f : Nat → MRes} {res : List Char × Caps} :
    ∀ (len a : Nat), firstSome f (List.range' a len) = some res →
      ∃ n, a ≤ n ∧ n < a + len ∧ f n = some res ∧
        ∀ j, a ≤ j → j < n → f j = none := by
  intro len
  induction len with
  | zero =>
    intro a h
    rw [show List.range' a 0 = [] from rfl, firstSome] at h
    exact Option.noConfusion h
  | succ len ih =>
    intro a h
    rw [List.range'_succ, firstSome] at h
    cases hf : f a with
    | some r2 =>
      rw [hf] at h
      cases h
      refine ⟨a, Nat.le_refl a, by omega, hf, ?_⟩
      intro j hj1 hj2
      exact absurd (Nat.lt_of_le_of_lt hj1 hj2) (Nat.lt_irrefl a)
    | none =>
      rw [hf] at h
      rcases ih (a + 1) h with ⟨n, hn1, hn2, hfn, hprev⟩
      refine ⟨n, by omega, by omega, hfn, ?_⟩
      intro j hj1 hj2
      by_cases hja : j = a
      · subst hja
        exact hf
      · exact hprev j (by omega) hj2

lemma getCap_setCap_same (n : Nat) (v : List Char) (caps : Caps) :
    getCap n (setCap n v caps) = v := by
  rw [setCap, getCap, if_pos rfl]

/-- Characterization of the answer stage: the tail
`(.+?)(?=boundary)` of the pattern captures, as group 3, the shortest
nonempty prefix of the remaining text whose cut point satisfies the
boundary lookahead, and the match ends exactly at that cut point. -/
lemma tail3_characterize {s3 : List Char} {caps : Caps}
    {res : List Char × Caps}
    (h : matchR (.cat (.group 3 (.plusL anyDotAll)) lookB) s3 caps
      (fun s2 c2 => some (s2, c2)) = some res) :
    ∃ n, 1 ≤ n ∧ n ≤ s3.length ∧ boundaryHolds (s3.drop n) = true ∧
      (∀ j, 1 ≤ j → j < n → boundaryHolds (s3.drop j) = false) ∧
      res = (s3.drop n, setCap 3 (s3.take n) caps) := by
  rw [matchR_cat, matchR_group_eq, matchR_plusL_eq, takeWhile_anyDotAll] at h
  rcases firstSome_range'_min s3.length 1 h with ⟨n, hn1, hn2, hfn, hprev⟩
  have hnlen : n ≤ s3.length := by omega
  have hbtrue : boundaryHolds (s3.drop n) = true := by
    cases hb : boundaryHolds (s3.drop n) with
    | true => rfl
    | false =>
      rw [matchR_lookB_false hb] at hfn
      exact Option.noConfusion hfn
  rw [matchR_lookB_true hbtrue] at hfn
  have harith : s3.length - (s3.drop n).length = n := by
    rw [List.length_drop]
    omega
  rw [harith] at hfn
  refine ⟨n, hn1, hnlen, hbtrue, ?_, ?_⟩
  · intro j hj1 hj2
    cases hb : boundaryHolds (s3.drop j) with
    | false => rfl
    | true =>
      have := hprev j hj1 hj2
      rw [matchR_lookB_true hb] at this
      exact Option.noConfusion this
  · cases hfn
    rfl

/-- Factoring a successful match through its continuation: the
continuation was invoked, at a suffix of the text, with substring-only
captures, and produced the final result. -/
lemma matchR_factor {t : List Char} {r : Regex} {s : List Char}
    {caps : Caps} {k : List Char → Caps → MRes} {res : List Char × Caps}
    (hs : SuffixOf s t) (hg : GoodCaps t caps)
    (h : matchR r s caps k = some res) :
    ∃ s2 c2, SuffixOf s2 t ∧ GoodCaps t c2 ∧ k s2 c2 = some res :=
  matchR_inv t r
    (fun res2 => ∃ s2 c2, SuffixOf s2 t ∧ GoodCaps t c2 ∧ k s2 c2 = some res2)
    s caps k hs hg
    (fun s2 c2 hs2 hg2 res2 hres2 => ⟨s2, c2, hs2, hg2, hres2⟩) res h

/-- Every match tuple of the scan arises from a successful anchored match
attempt at some suffix of the text. -/
lemma findAllAux_match_source {t : List Char} :
    ∀ (fuel : Nat) (s : List Char), SuffixOf s t →
      ∀ m ∈ findAllAux fuel s,
        ∃ s0 res, SuffixOf s0 t ∧ tryMatch s0 = some res ∧
          m = capsToMatch res.2 := by
  intro fuel
  induction fuel with
  | zero =>
    intro s _ m hm
    exact absurd hm (List.not_mem_nil m)
  | succ fuel ih =>
    intro s hs m hm
    match s, hm with
    | [], hm =>
      rw [findAllAux] at hm
      cases h1 : tryMatch [] with
      | some res =>
        rw [h1] at hm
        rcases List.mem_singleton.1 hm with rfl
        exact ⟨[], res, hs, h1, rfl⟩
      | none =>
        rw [h1] at hm
        exact absurd hm (List.not_mem_nil m)
    | c0 :: tl, hm =>
      rw [findAllAux] at hm
      cases h1 : tryMatch (c0 :: tl) with
      | some res =>
        rw [h1] at hm
        obtain ⟨rem, c⟩ := res
        rcases List.mem_cons.1 hm with rfl | hm
        · exact ⟨c0 :: tl, (rem, c), hs, h1, rfl⟩
        · exact ih _ (suffix_drop _ hs) m hm
      | none =>
        rw [h1] at hm
        exact ih tl (suffix_tail hs) m hm

/-- C6 (amended): for every input text, the matched answer body of every
match is a nonempty contiguous piece of the text that ends at the first
position, at least one character past the body's own start, where a record
boundary begins (question marker preceded by a blank line, two consecutive
blank lines, or end of document); no earlier interior cut point satisfies
the boundary, and the text at and beyond the chosen boundary is not part
of the body.  (As the counterexample shows, the body's start itself can
lie beyond a boundary when the whitespace run after the answer separator
swallows it, so the boundary is measured from the body's start, not from
the separator.) -/
theorem c6_answer_body_boundary (text : List Char) (m : RawMatch)
    (hm : m ∈ findAll text) :
    ∃ s3, SuffixOf s3 text ∧ ∃ n, 1 ≤ n ∧ n ≤ s3.length ∧
      m.g3 = s3.take n ∧ boundaryHolds (s3.drop n) = true ∧
      ∀ j, 1 ≤ j → j < n → boundaryHolds (s3.drop j) = false := by
  obtain ⟨s0, res, hs0, htry, hmeq⟩ :=
    findAllAux_match_source (text.length + 1) text (suffix_refl text) m hm
  rw [tryMatch, qaPattern] at htry
  have hg0 : GoodCaps text ([] : Caps) :=
    fun nv hnv => absurd hnv (List.not_mem_nil nv)
  rw [matchR_cat] at htry
  obtain ⟨s1, c1, hs1, hg1, htry⟩ := matchR_factor hs0 hg0 htry
  rw [matchR_cat] at htry
  obtain ⟨s2, c2, hs2, hg2, htry⟩ := matchR_factor hs1 hg1 htry
  rw [matchR_cat] at htry
  obtain ⟨s3, c3, hs3, hg3, htry⟩ := matchR_factor hs2 hg2 htry
  rw [matchR_cat] at htry
  obtain ⟨s4, c4, hs4, hg4, htry⟩ := matchR_factor hs3 hg3 htry
  rw [matchR_cat] at htry
  obtain ⟨s5, c5, hs5, hg5, htry⟩ := matchR_factor hs4 hg4 htry
  rw [matchR_cat] at htry
  obtain ⟨s6, c6, hs6, hg6, htry⟩ := matchR_factor hs5 hg5 htry
  rw [matchR_cat] at htry
  obtain ⟨s7, c7, hs7, hg7, htry⟩ := matchR_factor hs6 hg6 htry
  rw [matchR_cat] at htry
  obtain ⟨s8, c8, hs8, hg8, htry⟩ := matchR_factor hs7 hg7 htry
  rw [matchR_cat] at htry
  obtain ⟨s9, c9, hs9, hg9, htry⟩ := matchR_factor hs8 hg8 htry
  rw [matchR_cat] at htry
  obtain ⟨s10, c10, hs10, hg10, htry⟩ := matchR_factor hs9 hg9 htry
  rw [matchR_cat] at htry
  obtain ⟨s11, c11, hs11, hg11, htry⟩ := matchR_factor hs10 hg10 htry
  rw [matchR_cat] at htry
  obtain ⟨s12, c12, hs12, hg12, htry⟩ := matchR_factor hs11 hg11 htry
  rcases tail3_characterize htry with ⟨n, hn1, hn2, hb, hprev, hres⟩
  refine ⟨s12, hs12, n, hn1, hn2, ?_, hb, hprev⟩
  rw [hmeq, hres]
  show getCap 3 (setCap 3 (s12.take n) c12) = s12.take n
  exact getCap_setCap_same 3 _ c12

/-- Counterexample to C6 as stated: in `c6Text` the earliest record
boundary after the first answer separator is immediately at the separator
(the text there, `\n\nQ2：...`, satisfies the boundary), yet the matched
answer body is everything beyond that boundary — the whole second entry —
and the extracted answer contains that text.  So text at or beyond the
earliest boundary can be part of the record's answer. -/
theorem c6_boundary_counterexample :
    c6Text = ("Q1：q\nA1：").toList ++ ("\n\nQ2：r\nA2：s").toList ∧
    boundaryHolds (("\n\nQ2：r\nA2：s").toList) = true ∧
    findAll c6Text =
      [⟨("1").toList, ("q").toList, ("Q2：r\nA2：s").toList⟩] ∧
    extract c6Text = [⟨1, ("q").toList, ("Q2：rA2：s").toList⟩] := by
  refine ⟨by decide, by decide, by decide, by decide⟩

/-- Witness for the amended C6 at the example document's first match (the
Q2 entry, whose two-line answer body ends at the blank-line boundary). -/
theorem c6_answer_body_boundary_spot :
    ((⟨("2").toList, ("What is X?").toList, ("X is\na thing.").toList⟩ :
        RawMatch) ∈ findAll c1Text) ∧
    (∃ s3, SuffixOf s3 c1Text ∧ ∃ n, 1 ≤ n ∧ n ≤ s3.length ∧
      (⟨("2").toList, ("What is X?").toList, ("X is\na thing.").toList⟩ :
        RawMatch).g3 = s3.take n ∧
      boundaryHolds (s3.drop n) = true ∧
      ∀ j, 1 ≤ j → j < n → boundaryHolds (s3.drop j) = false) := by
  constructor
  · decide
  · exact c6_answer_body_boundary c1Text
      ⟨("2").toList, ("What is X?").toList, ("X is\na thing.").toList⟩
      (by decide)

lemma takeWhile_append_of_head {p : Char → Bool} {w : List Char}
    (hw : ∀ y ∈ w, p y = true) {x : Char} (u : List Char)
    (hx : p x = false) : (w ++ x :: u).takeWhile p = w := by
  induction w with
  | nil => simp [List.takeWhile_cons, hx]
  | cons y w ih =>
    rw [List.cons_append, List.takeWhile_cons,
      if_pos (hw y (List.mem_cons_self _ _))]
    rw [ih (fun z hz => hw z (List.mem_cons_of_mem _ hz))]

lemma dropWhile_append_of_head {p : Char → Bool} {w : List Char}
    (hw : ∀ y ∈ w, p y = true) {x : Char} (u : List Char)
    (hx : p x = false) : (w ++ x :: u).dropWhile p = x :: u := by
  induction w with
  | nil => simp [List.dropWhile_cons, hx]
  | cons y w ih =>
    rw [List.cons_append, List.dropWhile_cons,
      if_pos (hw y (List.mem_cons_self _ _))]
    exact ih (fun z hz => hw z (List.mem_cons_of_mem _ hz))

lemma colon_not_digit {c : Char} (h : isColon c = true) :
    isAsciiDigit c = false := by
  rw [isColon] at h
  simp only [Bool.or_eq_true] at h
  rcases h with h2 | h2
  · rw [show c = '：' from by simpa using h2]
    decide
  · rw [show c = ':' from by simpa using h2]
    decide

lemma range'_one_reverse_of_pos {m : Nat} (h : 1 ≤ m) :
    (List.range' 1 m).reverse = m :: (List.range' 1 (m - 1)).reverse := by
  obtain ⟨m2, rfl⟩ : ∃ m2, m = m2 + 1 := ⟨m - 1, by omega⟩
  rw [range'_one_reverse]
  simp

lemma range_reverse_succ (m : Nat) :
    (List.range (m + 1)).reverse = m :: (List.range m).reverse := by
  rw [List.range_succ]
  simp

lemma firstSome_range'_first {f : Nat → MRes} {res : List Char × Caps} :
    ∀ (len a n : Nat), a ≤ n → n < a + len → f n = some res →
      (∀ j, a ≤ j → j < n → f j = none) →
      firstSome f (List.range' a len) = some res := by
  intro len
  induction len with
  | zero =>
    intro a n h1 h2 _ _
    omega
  | succ len ih =>
    intro a n h1 h2 hfn hfail
    rw [List.range'_succ, firstSome]
    by_cases hna : n = a
    · subst hna
      rw [hfn]
    · rw [hfail a (Nat.le_refl a) (by omega)]
      exact ih (a + 1) n (by omega) (by omega) hfn
        (fun j hj1 hj2 => hfail j (by omega) hj2)

/-- Canonical success of a greedy digit run followed by a non-digit: the
run consumes exactly the digits. -/
lemma matchR_plusG_digits {ds : List Char}
    (hds : ds ≠ []) (hdig : ∀ y ∈ ds, isAsciiDigit y = true)
    {x : Char} (u : List Char) (hx : isAsciiDigit x = false)
    (caps : Caps) (k : List Char → Caps → MRes) {res : List Char × Caps}
    (hk : k (x :: u) caps = some res) :
    matchR (.plusG isAsciiDigit) (ds ++ x :: u) caps k = some res := by
  rw [matchR_plusG_eq, takeWhile_append_of_head hdig u hx]
  have hpos : 1 ≤ ds.length := by
    cases ds with
    | nil => exact absurd rfl hds
    | cons d ds2 => simp
  rw [range'_one_reverse_of_pos hpos, firstSome]
  have hdrop : (ds ++ x :: u).drop ds.length = x :: u := List.drop_left _ _
  rw [show (ds ++ x :: u).drop ds.length = x :: u from hdrop, hk]

/-- Canonical success of `\s*` when a maximal whitespace run is followed
by a non-whitespace character: the run is consumed whole. -/
lemma matchR_starG_ws {w : List Char}
    (hw : ∀ y ∈ w, isPySpace y = true) {x : Char} (u : List Char)
    (hx : isPySpace x = false)
    (caps : Caps) (k : List Char → Caps → MRes) {res : List Char × Caps}
    (hk : k (x :: u) caps = some res) :
    matchR (.starG isPySpace) (w ++ x :: u) caps k = some res := by
  rw [matchR_starG_eq, takeWhile_append_of_head hw u hx,
    range_reverse_succ, firstSome]
  have hdrop : (w ++ x :: u).drop w.length = x :: u := List.drop_left _ _
  rw [show (w ++ x :: u).drop w.length = x :: u from hdrop, hk]

/-- Canonical success of a captured lazy run: the shortest length at which
the continuation succeeds is taken, and the consumed prefix is recorded as
the capture. -/
lemma matchR_group_plusL {gi : Nat} {s : List Char} {n : Nat}
    (hn1 : 1 ≤ n) (hn2 : n ≤ s.length) (caps : Caps)
    (k : List Char → Caps → MRes) {res : List Char × Caps}
    (hfail : ∀ j, 1 ≤ j → j < n → k (s.drop j) (setCap gi (s.take j) caps) = none)
    (hk : k (s.drop n) (setCap gi (s.take n) caps) = some res) :
    matchR (.group gi (.plusL anyDotAll)) s caps k = some res := by
  rw [matchR_group_eq, matchR_plusL_eq, takeWhile_anyDotAll]
  refine firstSome_range'_first s.length 1 n hn1 (by omega) ?_ ?_
  · show k (s.drop n) (setCap gi (s.take (s.length - (s.drop n).length)) caps) =
      some res
    rw [List.length_drop, Nat.sub_sub_self hn2]
    exact hk
  · intro j hj1 hj2
    show k (s.drop j) (setCap gi (s.take (s.length - (s.drop j).length)) caps) =
      none
    rw [List.length_drop, Nat.sub_sub_self (by omega)]
    exact hfail j hj1 hj2

/-- Failure of the `\r?\n`-headed continuation at a position whose first
character is not a line break. -/
lemma matchR_nl_cons_ne (R : Regex) {x : Char} (h1 : x ≠ '\r')
    (h2 : x ≠ '\n') (u : List Char) (caps : Caps)
    (k : List Char → Caps → MRes) :
    matchR (.cat (.opt (· == '\r')) (.cat (.cls (· == '\n')) R)) (x :: u)
      caps k = none := by
  rw [matchR_nl_eq, eatNL?_cons_ne h1 h2]

lemma boundaryHolds_nil : boundaryHolds [] = true := rfl

lemma boundaryHolds_cons_ne {x : Char} (h1 : x ≠ '\r') (h2 : x ≠ '\n')
    (u : List Char) : boundaryHolds (x :: u) = false := by
  rw [boundaryHolds, eatNL?_cons_ne h1 h2]
  rfl

/-- The boundary holds at a blank line followed by a question marker. -/
lemma boundaryHolds_tailQ {ds : List Char} (hds : ds ≠ [])
    (hdig : ∀ y ∈ ds, isAsciiDigit y = true) {c : Char}
    (hc : isColon c = true) (u : List Char) :
    boundaryHolds ('\n' :: '\n' :: 'Q' :: (ds ++ c :: u)) = true := by
  rw [boundaryHolds]
  show (qMarkAt ('Q' :: (ds ++ c :: u)) ||
    (eatNL? ('Q' :: (ds ++ c :: u))).isSome) = true
  have hq : qMarkAt ('Q' :: (ds ++ c :: u)) = true := by
    rw [qMarkAt, takeWhile_append_of_head hdig u (colon_not_digit hc),
      dropWhile_append_of_head hdig u (colon_not_digit hc)]
    have hpos : 1 ≤ ds.length := by
      cases ds with
      | nil => exact absurd rfl hds
      | cons d ds2 => simp
    simp [hpos, hc]
  rw [hq, Bool.true_or]

lemma take_append_le {l1 l2 : List Char} {n : Nat} (h : n ≤ l1.length) :
    (l1 ++ l2).take n = l1.take n := by
  rw [List.take_append_eq_append_take, Nat.sub_eq_zero_of_le h,
    List.take_zero, List.append_nil]

lemma drop_append_le {l1 l2 : List Char} {n : Nat} (h : n ≤ l1.length) :
    (l1 ++ l2).drop n = l1.drop n ++ l2 := by
  rw [List.drop_append_eq_append_drop, Nat.sub_eq_zero_of_le h,
    List.drop_zero]

lemma dropWhile_ws_shape {l : List Char} (h : ∃ c ∈ l, isPySpace c = false) :
    ∃ x u, l.dropWhile isPySpace = x :: u ∧ isPySpace x = false := by
  cases hdw : l.dropWhile isPySpace with
  | nil =>
    rcases h with ⟨c, hc, hcw⟩
    rw [List.dropWhile_eq_nil_iff] at hdw
    rw [hdw c hc] at hcw
    exact Bool.noConfusion hcw
  | cons x u =>
    have hhd := List.head?_dropWhile_not isPySpace l
    rw [hdw] at hhd
    exact ⟨x, u, rfl, hhd⟩

lemma matchR_cat_cls_step {p : Char → Bool} {c : Char} (hp : p c = true)
    {rest : List Char} {caps : Caps} {k : List Char → Caps → MRes}
    {r2 : Regex} {res : List Char × Caps}
    (hk : matchR r2 rest caps k = some res) :
    matchR (.cat (.cls p) r2) (c :: rest) caps k = some res := by
  rw [matchR_cat, matchR_cls_cons, if_pos hp]
  exact hk

lemma matchR_cat_plusG_digits {ds : List Char}
    (hds : ds ≠ []) (hdig : ∀ y ∈ ds, isAsciiDigit y = true)
    {x : Char} {u : List Char} (hx : isAsciiDigit x = false)
    {caps : Caps} {k : List Char → Caps → MRes} {r2 : Regex}
    {res : List Char × Caps}
    (hk : matchR r2 (x :: u) caps k = some res) :
    matchR (.cat (.plusG isAsciiDigit) r2) (ds ++ x :: u) caps k = some res := by
  rw [matchR_cat]
  exact matchR_plusG_digits hds hdig u hx caps _ hk

lemma matchR_cat_group_plusG_digits {gi : Nat} {ds : List Char}
    (hds : ds ≠ []) (hdig : ∀ y ∈ ds, isAsciiDigit y = true)
    {x : Char} {u : List Char} (hx : isAsciiDigit x = false)
    {caps : Caps} {k : List Char → Caps → MRes} {r2 : Regex}
    {res : List Char × Caps}
    (hk : matchR r2 (x :: u) (setCap gi ds caps) k = some res) :
    matchR (.cat (.group gi (.plusG isAsciiDigit)) r2) (ds ++ x :: u) caps k =
      some res := by
  rw [matchR_cat, matchR_group_eq]
  refine matchR_plusG_digits hds hdig u hx caps _ ?_
  show matchR r2 (x :: u)
    (setCap gi ((ds ++ x :: u).take ((ds ++ x :: u).length - (x :: u).length))
      caps) k = some res
  have harith : (ds ++ x :: u).length - (x :: u).length = ds.length := by
    rw [List.length_append]
    omega
  rw [harith, List.take_left]
  exact hk

lemma matchR_cat_starG_ws {w : List Char}
    (hw : ∀ y ∈ w, isPySpace y = true) {x : Char} {u : List Char}
    (hx : isPySpace x = false)
    {caps : Caps} {k : List Char → Caps → MRes} {r2 : Regex}
    {res : List Char × Caps}
    (hk : matchR r2 (x :: u) caps k = some res) :
    matchR (.cat (.starG isPySpace) r2) (w ++ x :: u) caps k = some res := by
  rw [matchR_cat]
  exact matchR_starG_ws hw u hx caps _ hk

lemma matchR_nl_lf_step {R : Regex} {u : List Char} {caps : Caps}
    {k : List Char → Caps → MRes} {res : List Char × Caps}
    (hk : matchR R u caps k = some res) :
    matchR (.cat (.opt (· == '\r')) (.cat (.cls (· == '\n')) R)) ('\n' :: u)
      caps k = some res := by
  rw [matchR_nl_eq]
  exact hk

/-- Canonical success of a captured lazy segment `(body)` followed by the
rest of the pattern: the body is the shortest nonempty prefix after which
the rest succeeds; the interior cut points all fail. -/
lemma matchR_cat_group_plusL_seg {gi : Nat} {b Z : List Char} {r2 : Regex}
    {caps : Caps} {k : List Char → Caps → MRes} {res : List Char × Caps}
    (hbne : b ≠ [])
    (hfail : ∀ j, 1 ≤ j → j < b.length →
      matchR r2 (b.drop j ++ Z) (setCap gi (b.take j) caps) k = none)
    (hk : matchR r2 Z (setCap gi b caps) k = some res) :
    matchR (.cat (.group gi (.plusL anyDotAll)) r2) (b ++ Z) caps k =
      some res := by
  rw [matchR_cat]
  refine matchR_group_plusL (n := b.length) ?_ ?_ caps _ ?_ ?_
  · cases b with
    | nil => exact absurd rfl hbne
    | cons y b2 => simp
  · rw [List.length_append]
    omega
  · intro j hj1 hj2
    show matchR r2 ((b ++ Z).drop j) (setCap gi ((b ++ Z).take j) caps) k = none
    rw [drop_append_le (by omega), take_append_le (by omega)]
    exact hfail j hj1 hj2
  · show matchR r2 ((b ++ Z).drop b.length)
      (setCap gi ((b ++ Z).take b.length) caps) k = some res
    rw [List.drop_left, List.take_left]
    exact hk

/-- Canonical evaluation of one anchored match attempt at a well-formed
entry followed by a boundary: the attempt succeeds, stops exactly at the
boundary, and captures the question-marker digits, the question body after
its leading whitespace, and the answer body after its leading whitespace.
The answer-marker digits are matched but not captured. -/
lemma tryMatch_entry
    {qd : List Char} {qc : Char} {q : List Char}
    {ad : List Char} {ac : Char} {a : List Char} (tail : List Char)
    (hqd : WFdigits qd) (hqc : isColon qc = true) (hq : WFline q)
    (had : WFdigits ad) (hac : isColon ac = true) (ha : WFline a)
    (htail : boundaryHolds tail = true) :
    tryMatch
      ('Q' :: (qd ++ qc :: (q ++ '\n' :: 'A' :: (ad ++ ac :: (a ++ tail))))) =
      some (tail,
        [(3, a.dropWhile isPySpace), (2, q.dropWhile isPySpace), (1, qd)]) := by
  obtain ⟨hqd1, hqd2⟩ := hqd
  obtain ⟨hq1, hq2⟩ := hq
  obtain ⟨had1, had2⟩ := had
  obtain ⟨ha1, ha2⟩ := ha
  obtain ⟨x2, u2, hdwq, hx2⟩ := dropWhile_ws_shape hq2
  obtain ⟨x3, u3, hdwa, hx3⟩ := dropWhile_ws_shape ha2
  have hq'mem : ∀ y ∈ x2 :: u2, y ≠ '\n' ∧ y ≠ '\r' := by
    intro y hy
    rw [← hdwq] at hy
    exact hq1 y ((List.dropWhile_sublist _).subset hy)
  have ha'mem : ∀ y ∈ x3 :: u3, y ≠ '\n' ∧ y ≠ '\r' := by
    intro y hy
    rw [← hdwa] at hy
    exact ha1 y ((List.dropWhile_sublist _).subset hy)
  rw [tryMatch, qaPattern, hdwq, hdwa]
  refine matchR_cat_cls_step (by rfl) ?_
  refine matchR_cat_group_plusG_digits hqd1 hqd2 (colon_not_digit hqc) ?_
  refine matchR_cat_cls_step hqc ?_
  have hqshape : q ++ '\n' :: 'A' :: (ad ++ ac :: (a ++ tail)) =
      q.takeWhile isPySpace ++
        (x2 :: (u2 ++ '\n' :: 'A' :: (ad ++ ac :: (a ++ tail)))) := by
    conv_lhs => rw [← List.takeWhile_append_dropWhile isPySpace q]
    rw [hdwq]
    simp
  rw [hqshape]
  refine matchR_cat_starG_ws (fun y hy => List.mem_takeWhile_imp hy) hx2 ?_
  show matchR _ ((x2 :: u2) ++ ('\n' :: 'A' :: (ad ++ ac :: (a ++ tail)))) _ _ =
    _
  refine matchR_cat_group_plusL_seg (by simp) ?_ ?_
  · intro j hj1 hj2
    obtain hshape := List.drop_eq_getElem_cons (l := x2 :: u2) (n := j) hj2
    rw [hshape]
    have hymem := List.getElem_mem (l := x2 :: u2) (n := j) hj2
    exact matchR_nl_cons_ne _ (hq'mem _ hymem).2 (hq'mem _ hymem).1 _ _ _
  · refine matchR_nl_lf_step ?_
    have hAshape : 'A' :: (ad ++ ac :: (a ++ tail)) =
        [] ++ ('A' :: (ad ++ ac :: (a ++ tail))) := rfl
    rw [hAshape]
    refine matchR_cat_starG_ws (fun y hy => absurd hy (List.not_mem_nil y))
      (by decide) ?_
    refine matchR_cat_cls_step (by rfl) ?_
    refine matchR_cat_plusG_digits had1 had2 (colon_not_digit hac) ?_
    refine matchR_cat_cls_step hac ?_
    have hashape : a ++ tail =
        a.takeWhile isPySpace ++ (x3 :: (u3 ++ tail)) := by
      conv_lhs => rw [← List.takeWhile_append_dropWhile isPySpace a]
      rw [hdwa]
      simp
    rw [hashape]
    refine matchR_cat_starG_ws (fun y hy => List.mem_takeWhile_imp hy) hx3 ?_
    show matchR _ ((x3 :: u3) ++ tail) _ _ = _
    refine matchR_cat_group_plusL_seg (by simp) ?_ ?_
    · intro j hj1 hj2
      obtain hshape := List.drop_eq_getElem_cons (l := x3 :: u3) (n := j) hj2
      rw [hshape]
      have hymem := List.getElem_mem (l := x3 :: u3) (n := j) hj2
      rw [show ((x3 :: u3)[j] :: (x3 :: u3).drop (j + 1)) ++ tail =
        (x3 :: u3)[j] :: ((x3 :: u3).drop (j + 1) ++ tail) from rfl]
      rw [matchR_lookB_false
        (boundaryHolds_cons_ne (ha'mem _ hymem).2 (ha'mem _ hymem).1 _)]
    · rw [matchR_lookB_true htail]
      rfl

lemma tryMatch_nil : tryMatch [] = none := by
  rw [tryMatch, qaPattern, matchR_cat, matchR_cls_nil]

lemma tryMatch_not_Q {c : Char} (h : c ≠ 'Q') (t : List Char) :
    tryMatch (c :: t) = none := by
  rw [tryMatch, qaPattern, matchR_cat, matchR_cls_cons,
    if_neg (by simpa using h)]

lemma findAllAux_nil_succ (fuel : Nat) : findAllAux (fuel + 1) [] = [] := by
  rw [findAllAux, tryMatch_nil]

lemma findAllAux_cons_some {fuel : Nat} {c0 : Char} {t rem : List Char}
    {cp : Caps} (h : tryMatch (c0 :: t) = some (rem, cp)) :
    findAllAux (fuel + 1) (c0 :: t) =
      capsToMatch cp ::
        findAllAux fuel ((c0 :: t).drop (max 1 ((c0 :: t).length - rem.length))) := by
  rw [findAllAux, h]

lemma findAllAux_cons_none {fuel : Nat} {c0 : Char} {t : List Char}
    (h : tryMatch (c0 :: t) = none) :
    findAllAux (fuel + 1) (c0 :: t) = findAllAux fuel t := by
  rw [findAllAux, h]

lemma capsToMatch_std (v1 v2 v3 : List Char) :
    capsToMatch [(3, v3), (2, v2), (1, v1)] = ⟨v1, v2, v3⟩ := rfl

lemma dropWhile_ws_idem (l : List Char) :
    (l.dropWhile isPySpace).dropWhile isPySpace = l.dropWhile isPySpace := by
  cases hdw : l.dropWhile isPySpace with
  | nil => rfl
  | cons x u =>
    have hhd := List.head?_dropWhile_not isPySpace l
    rw [hdw] at hhd
    have hx : isPySpace x = false := hhd
    rw [List.dropWhile_cons, if_neg (by simp [hx])]

lemma pyStrip_dropWhile_ws (l : List Char) :
    pyStrip (l.dropWhile isPySpace) = pyStrip l := by
  rw [pyStrip, pyStrip, dropWhile_ws_idem]

lemma entryText_append_shape (e : Entry) (tail : List Char) :
    entryText e ++ tail =
      'Q' :: (e.qd ++ e.qc ::
        (e.q ++ '\n' :: 'A' :: (e.ad ++ e.ac :: (e.a ++ tail)))) := by
  simp [entryText]

lemma docText_cons_shape (e2 : Entry) (rest2 : List Entry) :
    ∃ u, docText (e2 :: rest2) = 'Q' :: (e2.qd ++ e2.qc :: u) := by
  cases rest2 with
  | nil =>
    refine ⟨e2.q ++ '\n' :: 'A' :: (e2.ad ++ e2.ac :: e2.a), ?_⟩
    show entryText e2 = _
    simp [entryText]
  | cons e3 rest3 =>
    refine ⟨e2.q ++ '\n' :: 'A' :: (e2.ad ++ e2.ac :: e2.a) ++
      '\n' :: '\n' :: docText (e3 :: rest3), ?_⟩
    show entryText e2 ++ '\n' :: '\n' :: docText (e3 :: rest3) = _
    simp [entryText]

/-- The raw match tuple produced for one well-formed entry. -/
lemma findAllAux_docText :
    ∀ (es : List Entry), (∀ e ∈ es, WFentry e) →
      ∀ fuel, (docText es).length < fuel →
        findAllAux fuel (docText es) =
          es.map (fun e =>
            (⟨e.qd, e.q.dropWhile isPySpace, e.a.dropWhile isPySpace⟩ :
              RawMatch)) := by
  intro es
  induction es with
  | nil =>
    intro _ fuel hfuel
    obtain ⟨f, rfl⟩ : ∃ f, fuel = f + 1 := ⟨fuel - 1, by omega⟩
    exact findAllAux_nil_succ f
  | cons e rest ih =>
    intro hwf fuel hfuel
    have hwfe := hwf e (List.mem_cons_self _ _)
    obtain ⟨hqd, hqc, hq, had, hac, ha⟩ := hwfe
    -- the tail after this entry, and its boundary
    rcases hrest : rest with _ | ⟨e2, rest2⟩
    · -- single entry at end of document
      subst hrest
      have hdoc : docText [e] = entryText e ++ [] := by
        simp [docText]
      have htm := tryMatch_entry ([]) hqd hqc hq had hac ha boundaryHolds_nil
      rw [← entryText_append_shape] at htm
      have hlen1 : 1 ≤ (entryText e).length := by
        rw [entryText]
        simp
      obtain ⟨f, rfl⟩ : ∃ f, fuel = f + 1 := ⟨fuel - 1, by omega⟩
      rw [hdoc, entryText_append_shape]
      rw [findAllAux_cons_some (by rw [← entryText_append_shape]; exact htm)]
      rw [capsToMatch_std]
      have hdrop : ('Q' :: (e.qd ++ e.qc ::
          (e.q ++ '\n' :: 'A' :: (e.ad ++ e.ac :: (e.a ++ []))))).drop
            (max 1 (('Q' :: (e.qd ++ e.qc ::
              (e.q ++ '\n' :: 'A' :: (e.ad ++ e.ac :: (e.a ++ []))))).length -
              ([] : List Char).length)) = [] := by
        rw [← entryText_append_shape]
        simp
      rw [hdrop]
      have hf1 : 1 ≤ f := by
        rw [hdoc] at hfuel
        simp at hfuel
        omega
      obtain ⟨f2, rfl⟩ : ∃ f2, f = f2 + 1 := ⟨f - 1, by omega⟩
      rw [findAllAux_nil_succ]
      rfl
    · -- entry followed by a blank line and further entries
      subst hrest
      have hwfe2 := hwf e2 (List.mem_cons_of_mem _ (List.mem_cons_self _ _))
      have hdoc : docText (e :: e2 :: rest2) =
          entryText e ++ ('\n' :: '\n' :: docText (e2 :: rest2)) := by
        simp [docText]
      have hbound : boundaryHolds ('\n' :: '\n' :: docText (e2 :: rest2)) = true := by
        obtain ⟨u, hu⟩ := docText_cons_shape e2 rest2
        rw [hu]
        exact boundaryHolds_tailQ hwfe2.1.1 hwfe2.1.2 hwfe2.2.1 u
      have htm := tryMatch_entry ('\n' :: '\n' :: docText (e2 :: rest2))
        hqd hqc hq had hac ha hbound
      rw [← entryText_append_shape] at htm
      obtain ⟨f, rfl⟩ : ∃ f, fuel = f + 1 := ⟨fuel - 1, by omega⟩
      rw [hdoc, entryText_append_shape]
      rw [findAllAux_cons_some (by rw [← entryText_append_shape]; exact htm)]
      rw [capsToMatch_std]
      have hdroparg : ('Q' :: (e.qd ++ e.qc ::
          (e.q ++ '\n' :: 'A' :: (e.ad ++ e.ac ::
            (e.a ++ ('\n' :: '\n' :: docText (e2 :: rest2))))))) =
          entryText e ++ ('\n' :: '\n' :: docText (e2 :: rest2)) :=
        (entryText_append_shape e _).symm
      rw [hdroparg]
      have hdrop : (entryText e ++ ('\n' :: '\n' :: docText (e2 :: rest2))).drop
          (max 1 ((entryText e ++ ('\n' :: '\n' :: docText (e2 :: rest2))).length -
            ('\n' :: '\n' :: docText (e2 :: rest2)).length)) =
          '\n' :: '\n' :: docText (e2 :: rest2) := by
        have hlen1 : 1 ≤ (entryText e).length := by
          rw [entryText]
          simp
        rw [List.length_append, Nat.add_sub_cancel,
          Nat.max_eq_right hlen1, List.drop_left]
      rw [hdrop]
      have hlene : (docText (e :: e2 :: rest2)).length =
          (entryText e).length + 2 + (docText (e2 :: rest2)).length := by
        rw [hdoc]
        simp
        omega
      have hlen1 : 1 ≤ (entryText e).length := by
        rw [entryText]
        simp
      obtain ⟨f2, rfl⟩ : ∃ f2, f = f2 + 1 := ⟨f - 1, by omega⟩
      rw [findAllAux_cons_none (tryMatch_not_Q (by decide) _)]
      obtain ⟨f3, rfl⟩ : ∃ f3, f2 = f3 + 1 := ⟨f2 - 1, by omega⟩
      rw [findAllAux_cons_none (tryMatch_not_Q (by decide) _)]
      rw [ih (fun e3 he3 => hwf e3 (List.mem_cons_of_mem _ he3)) f3 (by omega)]
      rfl

lemma findAll_docText (es : List Entry) (hwf : ∀ e ∈ es, WFentry e) :
    findAll (docText es) =
      es.map (fun e =>
        (⟨e.qd, e.q.dropWhile isPySpace, e.a.dropWhile isPySpace⟩ :
          RawMatch)) :=
  findAllAux_docText es hwf _ (Nat.lt_succ_self _)

lemma insortQA_length (a : QA) (l : List QA) :
    (insortQA a l).length = l.length + 1 := by
  induction l with
  | nil => rfl
  | cons b l ih =>
    rw [insortQA]
    by_cases hb : b.id < a.id
    · rw [if_pos hb]
      simp [ih]
    · rw [if_neg hb]
      simp

lemma sortQA_length (l : List QA) : (sortQA l).length = l.length := by
  induction l with
  | nil => rfl
  | cons a l ih =>
    rw [sortQA, insortQA_length, ih]
    rfl

/-- On a well-formed document the extraction result is exactly one record
per entry, built by `recOf`, stably sorted by id. -/
lemma extract_docText (es : List Entry) (hwf : ∀ e ∈ es, WFentry e) :
    extract (docText es) = sortQA (es.map recOf) := by
  rw [extract, findAll_docText es hwf, List.map_map]
  have hfun : (mkQA ∘ fun e =>
      (⟨e.qd, e.q.dropWhile isPySpace, e.a.dropWhile isPySpace⟩ : RawMatch)) =
      recOf := by
    funext e
    show mkQA ⟨e.qd, e.q.dropWhile isPySpace, e.a.dropWhile isPySpace⟩ = recOf e
    rw [mkQA, recOf]
    simp only [pyStrip_dropWhile_ws]
  rw [hfun]

/-- C2 (amended): a document of exactly N entries of the form
`Q<digits><colon> question` and `A<digits><colon> answer` on one line each,
where question and answer each contain at least one non-whitespace
character, separated by single blank lines, extracts exactly N records —
one per entry (each entry contributing its own id/question/answer record),
none dropped, none duplicated. -/
theorem c2_wellformed_count (es : List Entry) (hwf : ∀ e ∈ es, WFentry e) :
    extract (docText es) = sortQA (es.map recOf) ∧
    (extract (docText es)).length = es.length := by
  refine ⟨extract_docText es hwf, ?_⟩
  rw [extract_docText es hwf, sortQA_length, List.length_map]

/-- Counterexample to C2 as stated: a document of exactly two entries of
the required form whose first answer is the non-empty string `" "` —
extraction returns one record, not two (the first record's answer absorbs
the whole second entry). -/
theorem c2_count_counterexample :
    c2Text = docText
      [⟨("1").toList, '：', ("q").toList, ("1").toList, '：', (" ").toList⟩,
       ⟨("2").toList, '：', ("r").toList, ("2").toList, '：', ("s").toList⟩] ∧
    ((" ").toList : List Char) ≠ [] ∧
    (extract c2Text).length = 1 := by
  refine ⟨by decide, by decide, by decide⟩

/-- Witness for C2 (amended) on a concrete two-entry document, with mixed
colon styles and unrelated answer-marker digits. -/
theorem c2_wellformed_count_spot :
    (∀ e ∈ ([⟨("1").toList, '：', ("q").toList, ("7").toList, ':', ("ans").toList⟩,
        ⟨("2").toList, ':', ("r").toList, ("2").toList, '：', ("s").toList⟩] :
        List Entry), WFentry e) ∧
    (extract (docText
        [⟨("1").toList, '：', ("q").toList, ("7").toList, ':', ("ans").toList⟩,
         ⟨("2").toList, ':', ("r").toList, ("2").toList, '：', ("s").toList⟩]) =
      sortQA (([⟨("1").toList, '：', ("q").toList, ("7").toList, ':', ("ans").toList⟩,
         ⟨("2").toList, ':', ("r").toList, ("2").toList, '：', ("s").toList⟩] :
         List Entry).map recOf) ∧
     (extract (docText
        [⟨("1").toList, '：', ("q").toList, ("7").toList, ':', ("ans").toList⟩,
         ⟨("2").toList, ':', ("r").toList, ("2").toList, '：', ("s").toList⟩])).length =
       ([⟨("1").toList, '：', ("q").toList, ("7").toList, ':', ("ans").toList⟩,
         ⟨("2").toList, ':', ("r").toList, ("2").toList, '：', ("s").toList⟩] :
         List Entry).length) := by
  constructor
  · decide
  · exact c2_wellformed_count
      [⟨("1").toList, '：', ("q").toList, ("7").toList, ':', ("ans").toList⟩,
       ⟨("2").toList, ':', ("r").toList, ("2").toList, '：', ("s").toList⟩]
      (by decide)

lemma WFentry_setAD {e : Entry} {d : List Char} (he : WFentry e)
    (hd : WFdigits d) : WFentry (setAD e d) := by
  obtain ⟨h1, h2, h3, _, h5, h6⟩ := he
  exact ⟨h1, h2, h3, hd, h5, h6⟩

lemma zipWith_setAD_wf :
    ∀ (es : List Entry) (ds : List (List Char)),
      (∀ e ∈ es, WFentry e) → (∀ d ∈ ds, WFdigits d) →
      ∀ x ∈ List.zipWith setAD es ds, WFentry x := by
  intro es
  induction es with
  | nil =>
    intro ds _ _ x hx
    exact absurd hx (by simp)
  | cons e es ih =>
    intro ds hwf hds x hx
    cases ds with
    | nil => exact absurd hx (by simp)
    | cons d ds =>
      rcases List.mem_cons.1 hx with rfl | hx
      · exact WFentry_setAD (hwf e (List.mem_cons_self _ _))
          (hds d (List.mem_cons_self _ _))
      · exact ih ds (fun e2 he2 => hwf e2 (List.mem_cons_of_mem _ he2))
          (fun d2 hd2 => hds d2 (List.mem_cons_of_mem _ hd2)) x hx

lemma map_recOf_zipWith_setAD :
    ∀ (es : List Entry) (ds : List (List Char)), ds.length = es.length →
      (List.zipWith setAD es ds).map recOf = es.map recOf := by
  intro es
  induction es with
  | nil =>
    intro ds _
    simp
  | cons e es ih =>
    intro ds hlen
    cases ds with
    | nil => simp at hlen
    | cons d ds =>
      simp only [List.zipWith_cons_cons, List.map_cons]
      rw [ih ds (by simpa using hlen)]
      rfl

/-- C8 (amended): on well-formed documents the digits carried by answer
markers are ignored: replacing every answer marker's digits by arbitrary
(nonempty) digit strings leaves the extracted record sequence unchanged;
each record's id comes solely from its question marker's digits (`recOf`
does not depend on the answer marker at all). -/
theorem c8_answer_digits_ignored (es : List Entry) (ds : List (List Char))
    (hlen : ds.length = es.length) (hds : ∀ d ∈ ds, WFdigits d)
    (hwf : ∀ e ∈ es, WFentry e) :
    extract (docText (List.zipWith setAD es ds)) = extract (docText es) := by
  rw [extract_docText es hwf,
    extract_docText _ (zipWith_setAD_wf es ds hwf hds),
    map_recOf_zipWith_setAD es ds hlen]

/-- Counterexample to C8 as stated: two inputs that differ only in the
digits of one answer marker (`A2：` versus `A9：`, identical text on both
sides of the digit) produce different record sequences, because the
preceding entry's whitespace-only answer makes the marker's text end up
inside a captured answer body. -/
theorem c8_digits_counterexample :
    c2Text = ("Q1：q\nA1： \n\nQ2：r\nA").toList ++
      ("2").toList ++ ("：s").toList ∧
    c2TextB = ("Q1：q\nA1： \n\nQ2：r\nA").toList ++
      ("9").toList ++ ("：s").toList ∧
    extract c2Text ≠ extract c2TextB := by
  refine ⟨by decide, by decide, by decide⟩

/-- Witness for C8 (amended): changing both answer markers' digits of a
concrete two-entry well-formed document leaves the output unchanged. -/
theorem c8_answer_digits_ignored_spot :
    ((([("4").toList, ("123").toList] : List (List Char)).length =
      ([⟨("1").toList, '：', ("q").toList, ("7").toList, ':', ("ans").toList⟩,
        ⟨("2").toList, ':', ("r").toList, ("2").toList, '：', ("s").toList⟩] :
        List Entry).length) ∧
     (∀ d ∈ ([("4").toList, ("123").toList] : List (List Char)), WFdigits d) ∧
     (∀ e ∈ ([⟨("1").toList, '：', ("q").toList, ("7").toList, ':', ("ans").toList⟩,
        ⟨("2").toList, ':', ("r").toList, ("2").toList, '：', ("s").toList⟩] :
        List Entry), WFentry e)) ∧
    extract (docText (List.zipWith setAD
      [⟨("1").toList, '：', ("q").toList, ("7").toList, ':', ("ans").toList⟩,
       ⟨("2").toList, ':', ("r").toList, ("2").toList, '：', ("s").toList⟩]
      [("4").toList, ("123").toList])) =
    extract (docText
      [⟨("1").toList, '：', ("q").toList, ("7").toList, ':', ("ans").toList⟩,
       ⟨("2").toList, ':', ("r").toList, ("2").toList, '：', ("s").toList⟩]) := by
  constructor
  · exact ⟨by decide, by decide, by decide⟩
  · exact c8_answer_digits_ignored
      [⟨("1").toList, '：', ("q").toList, ("7").toList, ':', ("ans").toList⟩,
       ⟨("2").toList, ':', ("r").toList, ("2").toList, '：', ("s").toList⟩]
      [("4").toList, ("123").toList] (by decide) (by decide) (by decide)

end ConvertQA
